import Mathlib

/-!
Verification model of `db2sheet_exporter.py` (repository data2900/db2sheet).

The development shallowly embeds the two components with real semantics:

* `parse_date_range` (source lines 63-78), including a faithful model of
  CPython `datetime.strptime(s, "%Y%m%d")`: the format is compiled to the
  regular expression `(\d\d\d\d)(1[0-2]|0[1-9]|[1-9])(3[01]|[12]\d|0[1-9]|[1-9])`,
  matched greedily from the start with backtracking; the match must consume the
  whole string ("unconverted data remains" otherwise) and the captured
  (year, month, day) must be calendar-valid (`datetime.date` raises otherwise).

* `reshape_data` (source lines 145-217), over an explicit data-frame model:
  a frame is a column-name list plus rows of (column, cell) pairs, a cell is
  `Option String` (`none` is pandas NaN; pandas `drop_duplicates` and `merge`
  treat NaN keys as equal, so plain `Option` equality is the right notion).
  pandas `sort_values` is modelled by a stable insertion sort on the
  `target_date` column, descending with NaN last; the claims proved below
  only depend on sort properties (sortedness and permutation) that hold for
  pandas' unstable quicksort as well.
-/

namespace Db2Sheet

/-- A value of Python `datetime.date`: the result of a successful parse. -/
structure PyDate where
  year : Nat
  month : Nat
  day : Nat
deriving DecidableEq, Repr

/-- Numeric value of a digit character. -/
def dv (c : Char) : Nat := c.toNat - 48

/-- Gregorian leap year, as in Python `calendar`/`datetime`. -/
def isLeap (y : Nat) : Bool := y % 4 == 0 && (y % 100 != 0 || y % 400 == 0)

/-- Days in a month, as validated by the `datetime.date` constructor. -/
def daysInMonth (y m : Nat) : Nat :=
  if m = 2 then (if isLeap y then 29 else 28)
  else if m = 4 ∨ m = 6 ∨ m = 9 ∨ m = 11 then 30
  else 31

/-- The bounds checked by the `datetime.date` constructor
(`MINYEAR = 1`, `MAXYEAR = 9999`, month/day ranges). -/
def dateValid (y m d : Nat) : Bool :=
  1 ≤ y && y ≤ 9999 && 1 ≤ m && m ≤ 12 && 1 ≤ d && d ≤ daysInMonth y m

/-- The `%Y` directive: exactly four digit characters. -/
def yearOf : List Char → Option (Nat × List Char)
  | a :: b :: c :: d :: rest =>
    if a.isDigit ∧ b.isDigit ∧ c.isDigit ∧ d.isDigit then
      some (1000 * dv a + 100 * dv b + 10 * dv c + dv d, rest)
    else none
  | _ => none

/-- The `%m` directive `1[0-2]|0[1-9]|[1-9]`: alternatives in regex order,
each as (captured month, remaining input). -/
def monthCands (l : List Char) : List (Nat × List Char) :=
  (match l with
   | '1' :: c :: r => if '0' ≤ c ∧ c ≤ '2' then [(10 + dv c, r)] else []
   | _ => []) ++
  (match l with
   | '0' :: c :: r => if '1' ≤ c ∧ c ≤ '9' then [(dv c, r)] else []
   | _ => []) ++
  (match l with
   | c :: r => if '1' ≤ c ∧ c ≤ '9' then [(dv c, r)] else []
   | _ => [])

/-- The `%d` directive `3[01]|[12]\d|0[1-9]|[1-9]`: alternatives in regex
order. -/
def dayCands (l : List Char) : List (Nat × List Char) :=
  (match l with
   | '3' :: c :: r => if c = '0' ∨ c = '1' then [(30 + dv c, r)] else []
   | _ => []) ++
  (match l with
   | a :: c :: r => if ('1' ≤ a ∧ a ≤ '2') ∧ c.isDigit then [(10 * dv a + dv c, r)] else []
   | _ => []) ++
  (match l with
   | '0' :: c :: r => if '1' ≤ c ∧ c ≤ '9' then [(dv c, r)] else []
   | _ => []) ++
  (match l with
   | c :: r => if '1' ≤ c ∧ c ≤ '9' then [(dv c, r)] else []
   | _ => [])

/-- `datetime.strptime(s, "%Y%m%d").date()`: take the first regex match in
backtracking order, require it to consume the whole input, then validate the
calendar date.  Leftover input or an invalid date does not re-enter the
regex engine. -/
def strptimeYmd (l : List Char) : Option PyDate :=
  match yearOf l with
  | none => none
  | some (y, rest) =>
    match ((monthCands rest).map
        (fun mc => (dayCands mc.2).map (fun dc => (mc.1, dc.1, dc.2)))).flatten.head? with
    | none => none
    | some (m, d, r3) =>
      if r3 = [] ∧ dateValid y m d then some ⟨y, m, d⟩ else none

/-- Python `str.strip()` whitespace (ASCII part). -/
def isPySpace (c : Char) : Bool :=
  c = ' ' || c = '\t' || c = '\n' || c = '\x0d' || c = '\x0b' || c = '\x0c'

/-- Python `str.strip()`. -/
def pystrip (l : List Char) : List Char :=
  ((l.dropWhile isPySpace).reverse.dropWhile isPySpace).reverse

/-- Python `str.split(sep)` for a one-character separator. -/
def splitChar (sep : Char) : List Char → List (List Char)
  | [] => [[]]
  | c :: r =>
    if c = sep then [] :: splitChar sep r
    else
      match splitChar sep r with
      | [] => [[c]]
      | h :: t => (c :: h) :: t

/-- `parse_date_range` (source lines 63-78) on the character list of the
input string.  Errors: a two-element unpack failure of `split("-")`, or a
`strptime` failure on a segment. -/
def parseCore (l : List Char) : Except String (PyDate × PyDate) :=
  let l' := pystrip l
  if '-' ∈ l' then
    match splitChar '-' l' with
    | [a, b] =>
      let a' := pystrip a
      let b' := pystrip b
      let e' := if b'.length = 4 then a'.take 4 ++ b' else b'
      match strptimeYmd a', strptimeYmd e' with
      | some da, some db => .ok (da, db)
      | _, _ => .error "time data does not match format"
    | _ => .error "values to unpack"
  else
    match strptimeYmd l' with
    | some d => .ok (d, d)
    | none => .error "time data does not match format"

instance {ε α : Type} [DecidableEq ε] [DecidableEq α] : DecidableEq (Except ε α) := fun x y =>
  match x, y with
  | .ok a, .ok b =>
    if h : a = b then .isTrue (by rw [h]) else .isFalse (by simp [h])
  | .error a, .error b =>
    if h : a = b then .isTrue (by rw [h]) else .isFalse (by simp [h])
  | .ok _, .error _ => .isFalse (by simp)
  | .error _, .ok _ => .isFalse (by simp)

/-- `parse_date_range` on a Lean `String`. -/
def parse_date_range (s : String) : Except String (PyDate × PyDate) :=
  parseCore s.data

/-- An input with a malformed segment: the single date, the range start, or a
non-abbreviated range end is rejected by the `strptime` model (or the range
has more than one separator, so tuple unpacking fails). -/
def badSegments (l : List Char) : Bool :=
  if '-' ∈ pystrip l then
    match splitChar '-' (pystrip l) with
    | [a, b] =>
      (strptimeYmd (pystrip a)).isNone ||
        (decide ((pystrip b).length ≠ 4) && (strptimeYmd (pystrip b)).isNone)
    | _ => true
  else (strptimeYmd (pystrip l)).isNone

/-! ## The data-frame model and `reshape_data` -/

/-- A pandas cell: `none` is NaN/NULL. -/
abbrev Cell := Option String

/-- A data-frame row: (column name, cell) pairs, in column order. -/
abbrev Row := List (String × Cell)

/-- A pandas DataFrame: column names plus rows. -/
structure DataFrame where
  cols : List String
  rows : List Row
deriving DecidableEq, Repr

/-- Value of a row at a column (first occurrence), NaN when absent. -/
def lk : Row → String → Cell
  | [], _ => none
  | (c', v) :: r, c => if c' = c then v else lk r c

/-- `COLUMN_NAME_MAP` (source lines 19-43). -/
def COLUMN_NAME_MAP : List (String × String) :=
  [("price", "株価"), ("per", "予想PER"), ("yield_rate", "予想配当利回り"),
   ("pbr", "PBR（実績）"), ("roe_n", "ROE（予想）"), ("earning_yield", "株式益回り（予想）"),
   ("rating", "レーティング"), ("sales", "売上高予想"), ("profit", "経常利益予想"),
   ("scale", "規模"), ("cheap", "割安度"), ("growth", "成長"), ("profitab", "収益性"),
   ("safety", "安全性"), ("risk", "リスク"), ("return_rate", "リターン"),
   ("liquidity", "流動性"), ("trend", "トレンド"), ("forex", "為替"),
   ("technical", "テクニカル")]

/-- `COLUMN_NAME_MAP.get(c, c)`. -/
def mapGet (c : String) : String :=
  match COLUMN_NAME_MAP.lookup c with
  | some j => j
  | none => c

/-- The per-date suffixed column name built at source line 185/208. -/
def labelOf (c td : String) : String := mapGet c ++ "_" ++ td

/-- `url_cols` (source line 161). -/
def url_cols : List String := ["ref_url_1", "ref_url_2", "ref_url_3"]

/-- `value_cols` (source lines 169-173), in declared order. -/
def value_cols : List String :=
  ["price", "per", "yield_rate", "pbr", "roe_n", "earning_yield",
   "rating", "sales", "profit", "scale", "cheap", "growth", "profitab",
   "safety", "risk", "return_rate", "liquidity", "trend", "forex", "technical"]

/-- `keys` (source line 175). -/
def dfKeys : List String := ["code", "name", "sector"]

/-- The required-column set `need` of source line 155, in Python `sorted`
order (the order of the `ValueError` message). -/
def needSorted : List String := ["code", "name", "sector", "target_date"]

/-- `df["target_date"].astype(str)` on one cell (`str(nan) = "nan"`). -/
def asStr : Cell → String
  | some s => s
  | none => "nan"

/-- Lexicographic comparison of character lists by code point: the order
Python uses on `str` (and hence on the `YYYYMMDD` date strings). -/
def strLeB : List Char → List Char → Bool
  | [], _ => true
  | _ :: _, [] => false
  | a :: as, b :: bs => if a = b then strLeB as bs else decide (a.toNat < b.toNat)

/-- Python `s <= t` on strings. -/
def pyStrLe (s t : String) : Bool := strLeB s.data t.data

/-- Cell comparison for `sort_values(ascending=False)`: descending on the
string value, NaN last (`na_position` default). -/
def cellBefore : Cell → Cell → Prop
  | some x, some y => pyStrLe y x = true
  | some _, none => True
  | none, some _ => False
  | none, none => True

instance : ∀ x y : Cell, Decidable (cellBefore x y) := fun x y => by
  cases x <;> cases y <;> simp only [cellBefore] <;> infer_instance

/-- Row comparison used for `sort_values("target_date", ascending=False)`
(source line 163). -/
def rowBefore (r1 r2 : Row) : Prop :=
  cellBefore (lk r1 "target_date") (lk r2 "target_date")

instance : DecidableRel rowBefore := fun _ _ => by
  unfold rowBefore; infer_instance

/-- `df.sort_values("target_date", ascending=False)` (source line 163);
stable sort (pandas' default quicksort is unstable, but every theorem below
depends only on sortedness and the permutation property). -/
def sortRows (l : List Row) : List Row := List.insertionSort rowBefore l

/-- Keep rows whose `code` cell was not seen yet (first occurrence wins). -/
def dedupByCodeAux (seen : List Cell) : List Row → List Row
  | [] => []
  | r :: rs =>
    if lk r "code" ∈ seen then dedupByCodeAux seen rs
    else r :: dedupByCodeAux (lk r "code" :: seen) rs

/-- `drop_duplicates(subset=["code"])` (source line 164): keep the first row
for each `code` cell; NaN codes compare equal, as in pandas. -/
def dedupByCode (l : List Row) : List Row := dedupByCodeAux [] l

/-- `url_df` (source lines 162-166): the most-recent row per `code`, reduced
to the link columns and indexed by `code`. -/
def urlDf (df : DataFrame) : List (Cell × Row) :=
  (dedupByCode (sortRows df.rows)).map
    (fun r => (lk r "code", url_cols.map (fun u => (u, lk r u))))

/-- `all_dates` (source line 176): distinct date strings, sorted descending. -/
def allDates (df : DataFrame) : List String :=
  List.insertionSort (fun a b : String => pyStrLe b a = true)
    ((df.rows.map (fun r => asStr (lk r "target_date"))).dedup)

/-- Drop the given columns from a frame (`df.drop(columns=...)`). -/
def dropCols (d : DataFrame) (cs : List String) : DataFrame :=
  ⟨d.cols.filter (fun c => c ∉ cs),
   d.rows.map (fun r => r.filter (fun p => p.1 ∉ cs))⟩

/-- The rename function of source line 185: a recognized metric column gets
the localized, date-suffixed name. -/
def renFor (td : String) (c : String) : String :=
  if c ∈ value_cols then labelOf c td else c

/-- One per-date subset `sub` (source lines 180-190): filter to the date,
drop `target_date` and the link columns, rename metric columns, and reorder
to keys first. -/
def subFor (df : DataFrame) (td : String) : DataFrame :=
  let dropped := "target_date" :: url_cols
  let rows := df.rows.filter (fun r => lk r "target_date" = some td)
  let cols1 := df.cols.filter (fun c => c ∉ dropped)
  let rows1 := rows.map (fun r => r.filter (fun p => p.1 ∉ dropped))
  let cols2 := cols1.map (renFor td)
  let rows2 := rows1.map (fun r => r.map (fun p => (renFor td p.1, p.2)))
  let keep := dfKeys ++ cols2.filter (fun c => c ∉ dfKeys)
  ⟨keep, rows2.map (fun r => keep.map (fun c => (c, lk r c)))⟩

/-- Keep list elements not seen yet (first occurrence wins). -/
def dedupRowsAux (seen : List Row) : List Row → List Row
  | [] => []
  | r :: rs =>
    if r ∈ seen then dedupRowsAux seen rs
    else r :: dedupRowsAux (r :: seen) rs

/-- `df[keys].drop_duplicates()` (source line 193): first occurrence of each
whole selected row. -/
def dedupRows (l : List Row) : List Row := dedupRowsAux [] l

/-- `base_keys` (source line 193). -/
def baseKeys (df : DataFrame) : DataFrame :=
  ⟨dfKeys, dedupRows (df.rows.map (fun r => dfKeys.map (fun c => (c, lk r c))))⟩

/-- The join-key tuple of a row. -/
def keyOf (r : Row) : List Cell := dfKeys.map (lk r)

/-- `pd.merge(left, right, on=keys, how="outer")` (source line 199) with
`sort=False`: left rows in order (each expanded by its key matches; NaN
padding when unmatched), then unmatched right rows.  NaN join keys match
each other, as pandas merge keys do. -/
def mergeOuter (left right : DataFrame) : DataFrame :=
  let rcols := right.cols.filter (fun c => c ∉ dfKeys)
  let cols := left.cols ++ rcols
  let leftPart := (left.rows.map (fun l =>
    let ms := right.rows.filter (fun r => keyOf r = keyOf l)
    if ms = [] then [l ++ rcols.map (fun c => (c, (none : Cell)))]
    else ms.map (fun r => l ++ rcols.map (fun c => (c, lk r c))))).flatten
  let rightPart := (right.rows.filter
      (fun r => ¬ left.rows.any (fun l => keyOf l = keyOf r))).map
    (fun r => cols.map (fun c =>
      (c, if c ∈ dfKeys then lk r c else if c ∈ left.cols then none else lk r c)))
  ⟨cols, leftPart ++ rightPart⟩

/-- One iteration of the merge loop (source lines 195-199): drop columns of
the per-date subset already present in the accumulator (lines 196-198), then
outer-merge on the keys. -/
def mergeStep (df acc : DataFrame) (td : String) : DataFrame :=
  let sub := subFor df td
  let dup := sub.cols.filter (fun c => c ∈ acc.cols ∧ c ∉ dfKeys)
  let sub' := if dup = [] then sub else dropCols sub dup
  mergeOuter acc sub'

/-- The merge loop of source lines 194-199. -/
def mergedOf (df : DataFrame) : DataFrame :=
  (allDates df).foldl (mergeStep df) (baseKeys df)

/-- `merged.set_index("code").join(url_df, how="left").reset_index()`
(source line 202): `code` moves to the front, the three link columns are
appended, values looked up by `code` (the `url_df` index is duplicate-free,
so a left join picks the unique match, NaN-padding when there is none). -/
def joinUrl (df merged : DataFrame) : DataFrame :=
  let u := urlDf df
  let restCols := merged.cols.filter (fun c => c ≠ "code")
  let cols := "code" :: restCols ++ url_cols
  let rows := merged.rows.map (fun m =>
    ("code", lk m "code") :: restCols.map (fun c => (c, lk m c)) ++
      (match (u.find? (fun p => p.1 = lk m "code")).map Prod.snd with
       | some ur => ur
       | none => url_cols.map (fun c => (c, (none : Cell)))))
  ⟨cols, rows⟩

/-- `ordered` (source lines 205-211). -/
def orderedCols (df m2 : DataFrame) : List String :=
  dfKeys ++
    (allDates df).flatMap (fun td =>
      value_cols.filterMap (fun c =>
        if labelOf c td ∈ m2.cols then some (labelOf c td) else none)) ++
    url_cols.filter (fun c => c ∈ m2.cols)

/-- `merged[ordered]` (source line 212). -/
def selectCols (d : DataFrame) (cs : List String) : DataFrame :=
  ⟨cs, d.rows.map (fun r => cs.map (fun c => (c, lk r c)))⟩

/-- The key-column localization of source line 215. -/
def renameKey (c : String) : String :=
  if c = "code" then "コード"
  else if c = "name" then "企業名"
  else if c = "sector" then "セクター" else c

/-- `merged.rename(columns={...})` (source line 215). -/
def renameKeys (d : DataFrame) : DataFrame :=
  ⟨d.cols.map renameKey, d.rows.map (fun r => r.map (fun p => (renameKey p.1, p.2)))⟩

/-- `merged.insert(0, "日付", ",".join(all_dates))` (source line 216). -/
def insertDateCol (dates : List String) (d : DataFrame) : DataFrame :=
  ⟨"日付" :: d.cols,
   d.rows.map (fun r => ("日付", some (String.intercalate "," dates)) :: r)⟩

/-- The non-trivial branch of `reshape_data` (source lines 160-217). -/
def finalDf (df : DataFrame) : DataFrame :=
  let merged := mergedOf df
  let m2 := joinUrl df merged
  insertDateCol (allDates df) (renameKeys (selectCols m2 (orderedCols df m2)))

/-- `reshape_data` (source lines 145-217).  The error payload is the
`sorted(miss)` list interpolated into the `ValueError` message. -/
def reshape_data (df : DataFrame) : Except (List String) DataFrame :=
  if df.rows = [] ∨ df.cols = [] then .ok df
  else if needSorted.filter (fun c => c ∉ df.cols) = [] then .ok (finalDf df)
  else .error (needSorted.filter (fun c => c ∉ df.cols))

/-! ## Well-formedness of long-format inputs -/

/-- Every column the fetch query (source lines 103-138) can produce. -/
def canonicalCols : List String :=
  "target_date" :: "code" :: "name" :: "sector" :: (value_cols ++ url_cols)

/-- A stored snapshot date: an 8-digit string (`YYYYMMDD`, as stored by the
enumerator query). -/
def dateOK : Cell → Bool
  | some s => decide (s.length = 8) && s.data.all Char.isDigit
  | none => false

/-- A long-format frame, as produced by `fetch_merged_data`: duplicate-free
columns drawn from the fetch query's schema, containing the required key
columns and the three link columns; rows aligned with the columns; every row
carrying a stored `YYYYMMDD` date. -/
def WF (df : DataFrame) : Prop :=
  df.cols.Nodup ∧
    (∀ c ∈ df.cols, c ∈ canonicalCols) ∧
    (∀ c ∈ needSorted, c ∈ df.cols) ∧
    (∀ c ∈ url_cols, c ∈ df.cols) ∧
    (∀ r ∈ df.rows, r.map Prod.fst = df.cols) ∧
    (∀ r ∈ df.rows, dateOK (lk r "target_date") = true)

instance (df : DataFrame) : Decidable (WF df) := by
  unfold WF; infer_instance

/-- At most one row per (date, entity code) pair: the long-format shape
("one row per (date, entity)" in the spec's glossary). -/
def UniqueDateCode (df : DataFrame) : Prop :=
  List.Pairwise
    (fun r1 r2 =>
      ¬ (lk r1 "target_date" = lk r2 "target_date" ∧ lk r1 "code" = lk r2 "code"))
    df.rows

instance (df : DataFrame) : Decidable (UniqueDateCode df) := by
  unfold UniqueDateCode; infer_instance

/-- Strictly-older-than on date cells (`a` is older than `b`); NaN is older
than every date. -/
def cellLt (a b : Cell) : Prop := cellBefore b a ∧ ¬ cellBefore a b

instance (a b : Cell) : Decidable (cellLt a b) := by
  unfold cellLt; infer_instance

/-- Concrete long-format frame: one entity, two dates, a `price` metric and
per-date link values. -/
def exDf : DataFrame :=
  ⟨["target_date", "code", "name", "sector", "price", "ref_url_1", "ref_url_2", "ref_url_3"],
   [[("target_date", some "20250801"), ("code", some "1111"), ("name", some "Acme"),
     ("sector", some "Tech"), ("price", some "100"), ("ref_url_1", some "u1a"),
     ("ref_url_2", some "u2a"), ("ref_url_3", none)],
    [("target_date", some "20250802"), ("code", some "1111"), ("name", some "Acme"),
     ("sector", some "Tech"), ("price", some "105"), ("ref_url_1", some "u1b"),
     ("ref_url_2", some "u2b"), ("ref_url_3", none)]]⟩

/-- Concrete long-format frame where the same code carries two different
names on different dates. -/
def exDfDrift : DataFrame :=
  ⟨["target_date", "code", "name", "sector", "price", "ref_url_1", "ref_url_2", "ref_url_3"],
   [[("target_date", some "20250801"), ("code", some "1111"), ("name", some "Acme"),
     ("sector", some "Tech"), ("price", some "100"), ("ref_url_1", some "u1a"),
     ("ref_url_2", some "u2a"), ("ref_url_3", none)],
    [("target_date", some "20250802"), ("code", some "1111"), ("name", some "Acme Inc"),
     ("sector", some "Tech"), ("price", some "105"), ("ref_url_1", some "u1b"),
     ("ref_url_2", some "u2b"), ("ref_url_3", none)]]⟩

/-- Concrete non-empty frame missing the `code` and `sector` columns. -/
def exMissingDf : DataFrame :=
  ⟨["target_date", "name"],
   [[("target_date", some "20250801"), ("name", some "Acme")]]⟩

/-- The `.ok` payload of a reshape result (for closed witness statements). -/
def okOut (e : Except (List String) DataFrame) : DataFrame :=
  match e with
  | .ok d => d
  | .error _ => ⟨[], []⟩

/-! # Theorems -/

/-! ## Behaviour checks of the parser model -/

example : parse_date_range "20250825" = .ok (⟨2025, 8, 25⟩, ⟨2025, 8, 25⟩) := by decide
example : parse_date_range "20250801-0831" = .ok (⟨2025, 8, 1⟩, ⟨2025, 8, 31⟩) := by decide
example : parse_date_range "20250801- 0831" = .ok (⟨2025, 8, 1⟩, ⟨2025, 8, 31⟩) := by decide
example : parse_date_range "20250801-20260102" = .ok (⟨2025, 8, 1⟩, ⟨2026, 1, 2⟩) := by decide
example : (parse_date_range "20250230").toOption = none := by decide
example : (parse_date_range "2025-08-01").toOption = none := by decide
example : parse_date_range "202511" = .ok (⟨2025, 1, 1⟩, ⟨2025, 1, 1⟩) := by decide
example : (parse_date_range "20251301-0701").toOption = none := by decide

/-! ## Support lemmas for the date parser -/

theorem digit_not_space {c : Char} (h : c.isDigit = true) : isPySpace c = false := by
  simp only [isPySpace, Bool.or_eq_false_iff, decide_eq_false_iff_not]
  refine ⟨⟨⟨⟨⟨?_, ?_⟩, ?_⟩, ?_⟩, ?_⟩, ?_⟩ <;> rintro rfl <;> simp [Char.isDigit] at h

theorem digit_ne_hyphen {c : Char} (h : c.isDigit = true) : c ≠ '-' := by
  rintro rfl; simp [Char.isDigit] at h

theorem dropWhile_isPySpace_eq {l : List Char} (h : ∀ c ∈ l, isPySpace c = false) :
    l.dropWhile isPySpace = l := by
  cases l with
  | nil => rfl
  | cons a r => simp [List.dropWhile, h a (List.mem_cons_self a r)]

theorem pystrip_eq {l : List Char} (h : ∀ c ∈ l, isPySpace c = false) :
    pystrip l = l := by
  unfold pystrip
  rw [dropWhile_isPySpace_eq h,
    dropWhile_isPySpace_eq (fun c hc => h c (List.mem_reverse.mp hc)),
    List.reverse_reverse]

theorem splitChar_no_sep {sep : Char} {l : List Char} (h : sep ∉ l) :
    splitChar sep l = [l] := by
  induction l with
  | nil => rfl
  | cons a r ih =>
    have ha : a ≠ sep := fun e => h (e ▸ List.mem_cons_self a r)
    have hr : sep ∉ r := fun e => h (List.mem_cons_of_mem _ e)
    rw [splitChar, if_neg (fun e => ha e), ih hr]

theorem splitChar_append {A B : List Char} (hA : '-' ∉ A) :
    splitChar '-' (A ++ '-' :: B) = A :: splitChar '-' B := by
  induction A with
  | nil => simp [splitChar]
  | cons a r ih =>
    have ha : a ≠ '-' := fun e => hA (e ▸ List.mem_cons_self a r)
    have hr : '-' ∉ r := fun e => hA (List.mem_cons_of_mem _ e)
    rw [List.cons_append, splitChar, if_neg (fun e => ha e), ih hr]

/-! ## C6 -/

/-- C6 (corrected): for a range `A-B` with `B` of length 4, where `A` itself
is a valid 8-digit calendar date denoting `da` and `A[:4]+B` is a valid
8-digit calendar date denoting `db`, `parse_date_range` yields `(A, A[:4]+B)`
(as the parsed dates `da` and `db`).  The extra requirement on `A` is forced:
the original claim only constrained `A[:4]+B`. -/
theorem parse_abbrev_end (A B : List Char) (da db : PyDate)
    (hlenA : A.length = 8) (hdigA : ∀ c ∈ A, c.isDigit = true)
    (hA : strptimeYmd A = some da)
    (hlenB : B.length = 4) (hdigE : ∀ c ∈ A.take 4 ++ B, c.isDigit = true)
    (hE : strptimeYmd (A.take 4 ++ B) = some db) :
    parse_date_range ⟨A ++ '-' :: B⟩ = .ok (da, db) := by
  have hdigB : ∀ c ∈ B, c.isDigit = true := fun c hc =>
    hdigE c (List.mem_append_right _ hc)
  have hnsp : ∀ c ∈ A ++ '-' :: B, isPySpace c = false := by
    intro c hc
    rcases List.mem_append.mp hc with h | h
    · exact digit_not_space (hdigA c h)
    · rcases List.mem_cons.mp h with rfl | h
      · decide
      · exact digit_not_space (hdigB c h)
  have hAhy : '-' ∉ A := fun h => digit_ne_hyphen (hdigA '-' h) rfl
  have hBhy : '-' ∉ B := fun h => digit_ne_hyphen (hdigB '-' h) rfl
  have hmem : '-' ∈ A ++ '-' :: B := List.mem_append_right _ (List.mem_cons_self _ _)
  show parseCore (A ++ '-' :: B) = .ok (da, db)
  unfold parseCore
  rw [pystrip_eq hnsp]
  rw [if_pos hmem, splitChar_append hAhy, splitChar_no_sep hBhy]
  dsimp only
  rw [pystrip_eq (fun c hc => digit_not_space (hdigA c hc)),
    pystrip_eq (fun c hc => digit_not_space (hdigB c hc)), hlenB]
  rw [if_pos rfl, hA, hE]

/-- C6 counterexample: for `A = "20251301"`, `B = "0701"` the claim's
hypotheses hold (`B` has length 4 and `A[:4]+B = "20250701"` is a valid
8-digit calendar date), yet `parse_date_range` raises instead of returning a
pair, because the start segment `A` is itself parsed and is invalid. -/
theorem parse_abbrev_end_cex :
    ("0701" : String).length = 4 ∧
      ("20250701" : String).length = 8 ∧
      (∀ c ∈ ("20250701" : String).data, c.isDigit = true) ∧
      strptimeYmd ("20250701" : String).data = some ⟨2025, 7, 1⟩ ∧
      (parse_date_range "20251301-0701").toOption = none := by
  decide

/-- C6 witness: the amended statement applied at `"20250801-0915"`. -/
theorem parse_abbrev_end_witness :
    parse_date_range ⟨("20250801" : String).data ++ '-' :: ("0915" : String).data⟩ =
      .ok (⟨2025, 8, 1⟩, ⟨2025, 9, 15⟩) :=
  parse_abbrev_end ("20250801" : String).data ("0915" : String).data _ _
    (by decide) (by decide) (by decide) (by decide) (by decide) (by decide)

/-! ## C7 -/

/-- C7 (corrected): whenever a fully-parsed segment (the single date, the
range start, or a non-abbreviated range end) is rejected by the
`strptime("%Y%m%d")` model — or the input has more than one separator —
`parse_date_range` fails with an error.  The original claim said the accepted
segments are exactly the valid 8-digit calendar dates; `strptime` is laxer
(leading zeros of month and day are optional), so 6- and 7-digit segments can
be accepted, and only the `strptime` acceptance condition characterizes
failure. -/
theorem parse_error_on_bad_segment (s : String) (h : badSegments s.data = true) :
    ∃ e, parse_date_range s = .error e := by
  show ∃ e, parseCore s.data = .error e
  unfold badSegments at h
  unfold parseCore
  by_cases hm : '-' ∈ pystrip s.data
  · rw [if_pos hm] at h ⊢
    cases hsp : splitChar '-' (pystrip s.data) with
    | nil => exact ⟨_, rfl⟩
    | cons a t =>
      cases t with
      | nil => exact ⟨_, rfl⟩
      | cons b t2 =>
        cases t2 with
        | nil =>
          rw [hsp] at h
          dsimp only at h ⊢
          simp only [Bool.or_eq_true, Bool.and_eq_true, Option.isNone_iff_eq_none,
            decide_eq_true_eq] at h
          rcases h with h | ⟨hlen, hnone⟩
          · rw [h]
            cases strptimeYmd (if (pystrip b).length = 4
                then (pystrip a).take 4 ++ pystrip b else pystrip b) <;> exact ⟨_, rfl⟩
          · rw [if_neg hlen, hnone]
            cases strptimeYmd (pystrip a) <;> exact ⟨_, rfl⟩
        | cons c t3 => exact ⟨_, rfl⟩
  · rw [if_neg hm] at h ⊢
    rw [Option.isNone_iff_eq_none] at h
    rw [h]
    exact ⟨_, rfl⟩

/-- C7 counterexample: `"202511"` is not a valid 8-digit calendar date (it
has six characters), yet `parse_date_range` succeeds on it — `strptime`
reads it as year 2025, month 1, day 1. -/
theorem parse_error_on_bad_segment_cex :
    ("202511" : String).length ≠ 8 ∧
      parse_date_range "202511" = .ok (⟨2025, 1, 1⟩, ⟨2025, 1, 1⟩) := by
  decide

/-- C7 witness: the amended statement applied at `"20250230"` (a regex match
that is not a calendar date). -/
theorem parse_error_on_bad_segment_witness :
    ∃ e, parse_date_range "20250230" = .error e :=
  parse_error_on_bad_segment "20250230" (by decide)

/-! ## Basic lookup lemmas -/

theorem lk_cons_self {c : String} {v : Cell} {r : Row} : lk ((c, v) :: r) c = v := by
  simp [lk]

theorem lk_cons_ne {c c' : String} {v : Cell} {r : Row} (h : c' ≠ c) :
    lk ((c', v) :: r) c = lk r c := by
  simp [lk, h]

theorem lk_map_pairs {cs : List String} {g : String → Cell} {c : String} (h : c ∈ cs) :
    lk (cs.map (fun c => (c, g c))) c = g c := by
  induction cs with
  | nil => cases h
  | cons a t ih =>
    by_cases ha : a = c
    · subst ha; rw [List.map_cons, lk_cons_self]
    · rw [List.map_cons, lk_cons_ne ha]
      rcases List.mem_cons.mp h with e | h'
      · exact absurd e.symm ha
      · exact ih h'

theorem lk_map_keyed {cs : List String} {f : String → String} {g : String → Cell}
    {c0 x : String} (hx : x ∈ cs) (hfx : f x = c0)
    (huniq : ∀ y ∈ cs, f y = c0 → g y = g x) :
    lk (cs.map (fun c => (f c, g c))) c0 = g x := by
  induction cs with
  | nil => cases hx
  | cons a t ih =>
    rw [List.map_cons]
    by_cases ha : f a = c0
    · rw [ha, lk_cons_self]
      exact huniq a (List.mem_cons_self a t) ha
    · rw [lk_cons_ne ha]
      rcases List.mem_cons.mp hx with rfl | hx'
      · exact absurd hfx ha
      · exact ih hx' (fun y hy => huniq y (List.mem_cons_of_mem _ hy))

theorem lk_append_left {r1 r2 : Row} {c : String} (h : c ∈ r1.map Prod.fst) :
    lk (r1 ++ r2) c = lk r1 c := by
  induction r1 with
  | nil => cases h
  | cons p t ih =>
    obtain ⟨a, v⟩ := p
    rw [List.map_cons] at h
    by_cases hp : a = c
    · subst hp; rw [List.cons_append, lk_cons_self, lk_cons_self]
    · rw [List.cons_append, lk_cons_ne hp, lk_cons_ne hp]
      refine ih ?_
      rcases List.mem_cons.mp h with e | h'
      · exact absurd e.symm hp
      · exact h'

theorem lk_append_right {r1 r2 : Row} {c : String} (h : c ∉ r1.map Prod.fst) :
    lk (r1 ++ r2) c = lk r2 c := by
  induction r1 with
  | nil => rfl
  | cons p t ih =>
    obtain ⟨a, v⟩ := p
    rw [List.map_cons] at h
    have hp : a ≠ c := fun e => h (e ▸ List.mem_cons_self _ _)
    rw [List.cons_append, lk_cons_ne hp]
    exact ih (fun e => h (List.mem_cons_of_mem _ e))

theorem lk_filter_keys {r : Row} {q : String → Bool} {c : String} (h : q c = true) :
    lk (r.filter (fun p => q p.1)) c = lk r c := by
  induction r with
  | nil => rfl
  | cons p t ih =>
    obtain ⟨a, v⟩ := p
    by_cases hq : q a = true
    · by_cases hp : a = c
      · subst hp; simp [List.filter_cons, hq, lk]
      · simp [List.filter_cons, hq, lk, hp, ih]
    · have hp : a ≠ c := fun e => hq (e ▸ h)
      simp [List.filter_cons, hq, lk, hp, ih]

theorem lk_rename {r : Row} {f : String → String} {c : String}
    (hf : ∀ x, f x = c → x = c) (hc : f c = c) :
    lk (r.map (fun p => (f p.1, p.2))) c = lk r c := by
  induction r with
  | nil => rfl
  | cons p t ih =>
    obtain ⟨a, v⟩ := p
    by_cases hp : a = c
    · subst hp; simp [lk, hc, ih]
    · have hfp : f a ≠ c := fun e => hp (hf _ e)
      simp [lk, hfp, hp, ih]

theorem map_fst_filter_keys (r : Row) (q : String → Bool) :
    (r.filter (fun p => q p.1)).map Prod.fst = (r.map Prod.fst).filter q := by
  induction r with
  | nil => rfl
  | cons p t ih =>
    obtain ⟨a, v⟩ := p
    by_cases hq : q a = true
    · simp [List.filter_cons, hq, ih]
    · simp [List.filter_cons, hq, ih]

/-! ## Suffixed-label disequalities -/

theorem append_sep_inj : ∀ {u v a b : List Char}, '_' ∉ u → '_' ∉ v →
    u ++ '_' :: a = v ++ '_' :: b → u = v ∧ a = b := by
  intro u
  induction u with
  | nil =>
    intro v a b _ hv he
    cases v with
    | nil =>
      rw [List.nil_append, List.nil_append] at he
      exact ⟨rfl, (List.cons.inj he).2⟩
    | cons y v' =>
      rw [List.nil_append, List.cons_append] at he
      have : y = '_' := ((List.cons.inj he).1).symm
      exact absurd (this ▸ List.mem_cons_self y v') hv
  | cons x u' ih =>
    intro v a b hu hv he
    cases v with
    | nil =>
      rw [List.nil_append, List.cons_append] at he
      have : x = '_' := (List.cons.inj he).1
      exact absurd (this ▸ List.mem_cons_self x u') hu
    | cons y v' =>
      rw [List.cons_append, List.cons_append] at he
      obtain ⟨hxy, he'⟩ := List.cons.inj he
      obtain ⟨h1, h2⟩ := ih (fun m => hu (List.mem_cons_of_mem _ m))
        (fun m => hv (List.mem_cons_of_mem _ m)) he'
      exact ⟨by rw [hxy, h1], h2⟩

theorem labelOf_data (c td : String) :
    (labelOf c td).data = (mapGet c).data ++ '_' :: td.data := by
  show (mapGet c ++ "_" ++ td).data = _
  rw [String.data_append, String.data_append, List.append_assoc,
    show ("_" : String).data = ['_'] by decide, List.singleton_append]

theorem mapGet_no_underscore : ∀ c ∈ value_cols, '_' ∉ (mapGet c).data := by decide

theorem mapGet_inj_on : ∀ a ∈ value_cols, ∀ b ∈ value_cols, mapGet a = mapGet b → a = b := by
  decide

theorem underscore_mem_label (c td : String) : '_' ∈ (labelOf c td).data := by
  rw [labelOf_data]
  exact List.mem_append_right _ (List.mem_cons_self _ _)

theorem label_inj {c c' td td' : String} (hc : c ∈ value_cols) (hc' : c' ∈ value_cols)
    (he : labelOf c td = labelOf c' td') : c = c' ∧ td = td' := by
  have hd : (mapGet c).data ++ '_' :: td.data = (mapGet c').data ++ '_' :: td'.data := by
    rw [← labelOf_data, ← labelOf_data, he]
  obtain ⟨h1, h2⟩ :=
    append_sep_inj (mapGet_no_underscore c hc) (mapGet_no_underscore c' hc') hd
  exact ⟨mapGet_inj_on c hc c' hc' (String.ext h1), String.ext h2⟩

theorem label_ne_of_no_underscore {s : String} (c td : String) (hs : '_' ∉ s.data) :
    labelOf c td ≠ s := fun e => hs (e ▸ underscore_mem_label c td)

theorem label_ne_of_prefix {s : String} {c : String} (td pre post : String)
    (hc : c ∈ value_cols) (hpre : '_' ∉ pre.data) (hne : mapGet c ≠ pre)
    (hs : s.data = pre.data ++ '_' :: post.data) : labelOf c td ≠ s := by
  intro e
  have hd : (mapGet c).data ++ '_' :: td.data = pre.data ++ '_' :: post.data := by
    rw [← labelOf_data, e, hs]
  exact hne (String.ext (append_sep_inj (mapGet_no_underscore c hc) hpre hd).1)

theorem mapGet_ne_ref : ∀ x ∈ value_cols, mapGet x ≠ "ref" := by decide

theorem mapGet_ne_target : ∀ x ∈ value_cols, mapGet x ≠ "target" := by decide

theorem label_not_key {c td : String} (hc : c ∈ value_cols) : labelOf c td ∉ dfKeys := by
  intro hmem
  simp only [dfKeys, List.mem_cons, List.not_mem_nil, or_false] at hmem
  rcases hmem with e | e | e <;> exact label_ne_of_no_underscore c td (by decide) e

theorem label_not_url {c td : String} (hc : c ∈ value_cols) : labelOf c td ∉ url_cols := by
  intro hmem
  have hne : mapGet c ≠ "ref" := mapGet_ne_ref c hc
  simp only [url_cols, List.mem_cons, List.not_mem_nil, or_false] at hmem
  rcases hmem with e | e | e
  · exact label_ne_of_prefix td "ref" "url_1" hc (by decide) hne (by decide) e
  · exact label_ne_of_prefix td "ref" "url_2" hc (by decide) hne (by decide) e
  · exact label_ne_of_prefix td "ref" "url_3" hc (by decide) hne (by decide) e

theorem label_ne_target {c td : String} (hc : c ∈ value_cols) :
    labelOf c td ≠ "target_date" :=
  label_ne_of_prefix td "target" "date" hc (by decide) (mapGet_ne_target c hc) (by decide)

theorem renameKey_label {c td : String} : renameKey (labelOf c td) = labelOf c td := by
  unfold renameKey
  rw [if_neg (label_ne_of_no_underscore c td (by decide)),
    if_neg (label_ne_of_no_underscore c td (by decide)),
    if_neg (label_ne_of_no_underscore c td (by decide))]

/-! ## C9 -/

/-- C9: on an empty input frame `reshape_data` returns it unchanged without
performing the required-column validation — no missing-column error can
occur, whatever the column list. -/
theorem reshape_empty_identity (cols : List String) :
    reshape_data ⟨cols, []⟩ = .ok ⟨cols, []⟩ := by
  unfold reshape_data
  rw [if_pos (Or.inl rfl)]

/-! ## C5 -/

/-- C5: a non-empty frame (rows and columns both present) missing a required
entity-key column fails with the validation error carrying, in sorted order,
exactly the required columns absent from the input. -/
theorem reshape_missing_required (df : DataFrame) (hrows : df.rows ≠ [])
    (hcols : df.cols ≠ []) (c0 : String) (hc0 : c0 ∈ dfKeys) (hm : c0 ∉ df.cols) :
    reshape_data df = .error (needSorted.filter (fun c => c ∉ df.cols)) := by
  unfold reshape_data
  rw [if_neg (by simp [hrows, hcols])]
  rw [if_neg ?hne]
  case hne =>
    intro hnil
    have hc0n : c0 ∈ needSorted := by
      simp only [dfKeys, List.mem_cons, List.not_mem_nil, or_false] at hc0
      rcases hc0 with rfl | rfl | rfl <;> simp [needSorted]
    have : c0 ∈ needSorted.filter (fun c => c ∉ df.cols) :=
      List.mem_filter.mpr ⟨hc0n, by simpa using hm⟩
    rw [hnil] at this
    exact absurd this (List.not_mem_nil c0)

/-- C5 witness: a frame with only `target_date` and `name` columns fails
listing exactly `["code", "sector"]`. -/
theorem reshape_missing_required_witness :
    reshape_data exMissingDf = .error (needSorted.filter (fun c => c ∉ exMissingDf.cols)) ∧
      needSorted.filter (fun c => c ∉ exMissingDf.cols) = ["code", "sector"] :=
  ⟨reshape_missing_required exMissingDf (by decide) (by decide) "code" (by decide) (by decide),
    by decide⟩

/-! ## The happy path and the date list -/

theorem wf_required {df : DataFrame} (hwf : WF df) : ∀ c ∈ needSorted, c ∈ df.cols :=
  hwf.2.2.1

theorem reshape_ok (df : DataFrame) (hwf : WF df) (hne : df.rows ≠ []) :
    reshape_data df = .ok (finalDf df) := by
  unfold reshape_data
  have hc : df.cols ≠ [] := by
    intro h
    have := wf_required hwf "code" (by simp [needSorted])
    rw [h] at this
    exact List.not_mem_nil _ this
  have hmiss : needSorted.filter (fun c => c ∉ df.cols) = [] :=
    List.filter_eq_nil_iff.mpr (fun a ha => by simpa using wf_required hwf a ha)
  rw [if_neg (by simp [hne, hc]), if_pos hmiss]

theorem char_toNat_injective {a b : Char} (h : a.toNat = b.toNat) : a = b :=
  Char.ext (UInt32.ext h)

theorem strLeB_total : ∀ u v : List Char, strLeB u v = true ∨ strLeB v u = true := by
  intro u
  induction u with
  | nil => intro v; left; rfl
  | cons a as ih =>
    intro v
    cases v with
    | nil => right; rfl
    | cons b bs =>
      by_cases hab : a = b
      · subst hab
        rcases ih bs with h | h
        · left; simpa [strLeB] using h
        · right; simpa [strLeB] using h
      · have hne : a.toNat ≠ b.toNat := fun h => hab (char_toNat_injective h)
        rcases Nat.lt_or_ge a.toNat b.toNat with h | h
        · left; simp [strLeB, hab, h]
        · right
          have hba : b ≠ a := fun e => hab e.symm
          have : b.toNat < a.toNat := lt_of_le_of_ne h (fun e => hne e.symm)
          simp [strLeB, hba, this]

theorem strLeB_trans : ∀ u v w : List Char, strLeB u v = true → strLeB v w = true →
    strLeB u w = true := by
  intro u
  induction u with
  | nil => intro v w _ _; rfl
  | cons a as ih =>
    intro v w h1 h2
    cases v with
    | nil => simp [strLeB] at h1
    | cons b bs =>
      cases w with
      | nil => simp [strLeB] at h2
      | cons c cs =>
        by_cases hab : a = b <;> by_cases hbc : b = c
        · subst hab; subst hbc
          simp only [strLeB, if_pos rfl] at h1 h2 ⊢
          exact ih bs cs h1 h2
        · subst hab
          simp only [strLeB, if_pos rfl] at h1
          simpa [strLeB, hbc] using h2
        · subst hbc
          simpa [strLeB, hab] using h1
        · simp only [strLeB, if_neg hab, decide_eq_true_eq] at h1
          simp only [strLeB, if_neg hbc, decide_eq_true_eq] at h2
          have hac : a.toNat < c.toNat := Nat.lt_trans h1 h2
          have : a ≠ c := fun e => Nat.lt_irrefl _ (e ▸ hac)
          simp [strLeB, this, hac]

theorem pyStrLe_total (s t : String) : pyStrLe s t = true ∨ pyStrLe t s = true :=
  strLeB_total s.data t.data

theorem pyStrLe_trans {s t u : String} (h1 : pyStrLe s t = true) (h2 : pyStrLe t u = true) :
    pyStrLe s u = true :=
  strLeB_trans s.data t.data u.data h1 h2

theorem allDates_sorted (df : DataFrame) :
    List.Sorted (fun a b : String => pyStrLe b a = true) (allDates df) :=
  @List.sorted_insertionSort String (fun a b => pyStrLe b a = true)
    (fun _ _ => inferInstance)
    ⟨fun a b => (pyStrLe_total b a).elim Or.inl Or.inr⟩
    ⟨fun _ _ _ h1 h2 => pyStrLe_trans h2 h1⟩ _

theorem allDates_perm (df : DataFrame) :
    (allDates df).Perm ((df.rows.map (fun r => asStr (lk r "target_date"))).dedup) :=
  List.perm_insertionSort _ _

theorem allDates_nodup (df : DataFrame) : (allDates df).Nodup :=
  ((allDates_perm df).nodup_iff).mpr (List.nodup_dedup _)

theorem allDates_mem {df : DataFrame} (hwf : WF df) (d : String) :
    d ∈ allDates df ↔ ∃ r ∈ df.rows, lk r "target_date" = some d := by
  rw [(allDates_perm df).mem_iff, List.mem_dedup, List.mem_map]
  constructor
  · rintro ⟨r, hr, he⟩
    refine ⟨r, hr, ?_⟩
    have hd := hwf.2.2.2.2.2 r hr
    cases hlk : lk r "target_date" with
    | none => rw [hlk] at hd; cases hd
    | some s => rw [hlk] at he; rw [← he]; rfl
  · rintro ⟨r, hr, he⟩
    exact ⟨r, hr, by rw [he]; rfl⟩

/-! ## C1 -/

/-- C1 (corrected): the leading `日付` column holds, in every output row, the
comma-joined DESCENDING list of the distinct input dates (the source sorts
`all_dates` with `reverse=True` and joins that list).  The claim's "ascending"
does not hold. -/
theorem reshape_date_column (df out : DataFrame) (hwf : WF df) (hne : df.rows ≠ [])
    (hok : reshape_data df = .ok out) :
    out.cols.head? = some "日付" ∧
      List.Sorted (fun a b : String => pyStrLe b a = true) (allDates df) ∧
      (∀ d, d ∈ allDates df ↔ ∃ r ∈ df.rows, lk r "target_date" = some d) ∧
      ∀ r ∈ out.rows, lk r "日付" = some (String.intercalate "," (allDates df)) := by
  have hout : out = finalDf df := by
    rw [reshape_ok df hwf hne] at hok
    exact (Except.ok.inj hok).symm
  subst hout
  refine ⟨rfl, allDates_sorted df, fun d => allDates_mem hwf d, ?_⟩
  intro r hr
  show lk r "日付" = _
  have : r ∈ (insertDateCol (allDates df)
      (renameKeys (selectCols (joinUrl df (mergedOf df))
        (orderedCols df (joinUrl df (mergedOf df)))))).rows := hr
  rw [insertDateCol] at this
  obtain ⟨r', _, rfl⟩ := List.mem_map.mp this
  exact lk_cons_self

/-- C1 counterexample: for the two-date input `exDf` the date column reads
`"20250802,20250801"` (descending), not the claimed ascending
`"20250801,20250802"`. -/
theorem reshape_date_column_cex :
    reshape_data exDf = .ok (okOut (reshape_data exDf)) ∧
      (okOut (reshape_data exDf)).rows.map (fun r => lk r "日付") =
        [some "20250802,20250801"] ∧
      ("20250802,20250801" : String) ≠ "20250801,20250802" := by
  refine ⟨by decide, by decide, by decide⟩

/-- C1 witness: the amended statement applied at `exDf`. -/
theorem reshape_date_column_witness :
    WF exDf ∧
      ((okOut (reshape_data exDf)).cols.head? = some "日付" ∧
        List.Sorted (fun a b : String => pyStrLe b a = true) (allDates exDf) ∧
        (∀ d, d ∈ allDates exDf ↔ ∃ r ∈ exDf.rows, lk r "target_date" = some d) ∧
        ∀ r ∈ (okOut (reshape_data exDf)).rows,
          lk r "日付" = some (String.intercalate "," (allDates exDf))) :=
  ⟨by decide,
    reshape_date_column exDf (okOut (reshape_data exDf)) (by decide) (by decide) (by decide)⟩

/-! ## Column structure of the per-date subsets and of the merge -/

theorem canonical_split : ∀ c ∈ canonicalCols,
    (c ∈ ("target_date" :: url_cols) ∧ c ∉ value_cols) ∨
      (c ∈ dfKeys ∧ c ∉ value_cols ∧ c ∉ ("target_date" :: url_cols)) ∨
      (c ∈ value_cols ∧ c ∉ dfKeys ∧ c ∉ ("target_date" :: url_cols)) := by
  decide

theorem cols_pipeline (ls : List String) (hcan : ∀ c ∈ ls, c ∈ canonicalCols) (td : String) :
    ((ls.filter (fun c => c ∉ ("target_date" :: url_cols))).map (renFor td)).filter
        (fun c => c ∉ dfKeys)
      = (ls.filter (fun c => c ∈ value_cols)).map (fun c => labelOf c td) := by
  induction ls with
  | nil => rfl
  | cons a t ih =>
    have iht := ih (fun c hc => hcan c (List.mem_cons_of_mem _ hc))
    rcases canonical_split a (hcan a (List.mem_cons_self a t)) with
      ⟨hdrop, hnv⟩ | ⟨hkey, hnv, hnd⟩ | ⟨hval, hnk, hnd⟩
    · simp only [List.filter_cons, hdrop, hnv]
      simpa using iht
    · simp only [List.filter_cons]
      rw [show (decide (a ∉ ("target_date" :: url_cols))) = true from by simpa using hnd,
        if_pos rfl, List.map_cons,
        show renFor td a = a from by simp [renFor, hnv], List.filter_cons,
        show (decide (a ∉ dfKeys)) = false from by simpa using hkey, if_neg (by simp),
        show (decide (a ∈ value_cols)) = false from by simpa using hnv, if_neg (by simp)]
      exact iht
    · have hlab := @label_not_key a td hval
      simp only [List.filter_cons]
      rw [show (decide (a ∉ ("target_date" :: url_cols))) = true by simpa using hnd,
        if_pos rfl, List.map_cons, List.filter_cons,
        show renFor td a = labelOf a td from by simp [renFor, hval]]
      rw [show (decide (labelOf a td ∉ dfKeys)) = true by simpa using hlab, if_pos rfl]
      rw [show (decide (a ∈ value_cols)) = true by simpa using hval, if_pos rfl,
        List.map_cons, iht]

theorem subFor_cols (df : DataFrame) (td : String)
    (hcan : ∀ c ∈ df.cols, c ∈ canonicalCols) :
    (subFor df td).cols
      = dfKeys ++ (df.cols.filter (fun c => c ∈ value_cols)).map (fun c => labelOf c td) := by
  show dfKeys ++ _ = _
  rw [cols_pipeline df.cols hcan td]

theorem mem_label_block {df : DataFrame} {x td : String}
    (hx : x ∈ (df.cols.filter (fun c => c ∈ value_cols)).map (fun c => labelOf c td)) :
    ∃ c, c ∈ df.cols ∧ c ∈ value_cols ∧ x = labelOf c td := by
  obtain ⟨c, hc, rfl⟩ := List.mem_map.mp hx
  have := List.mem_filter.mp hc
  exact ⟨c, this.1, by simpa using this.2, rfl⟩

theorem merge_fold_cols (df : DataFrame) (hcan : ∀ c ∈ df.cols, c ∈ canonicalCols) :
    ∀ (dts : List String) (done : List String) (acc : DataFrame),
      acc.cols = dfKeys ++ done.flatMap
        (fun td => (df.cols.filter (fun c => c ∈ value_cols)).map (fun c => labelOf c td)) →
      (∀ td ∈ dts, td ∉ done) → dts.Nodup →
      (dts.foldl (mergeStep df) acc).cols
        = dfKeys ++ (done ++ dts).flatMap
            (fun td => (df.cols.filter (fun c => c ∈ value_cols)).map (fun c => labelOf c td)) := by
  intro dts
  induction dts with
  | nil => intro done acc hacc _ _; simpa using hacc
  | cons td rest ih =>
    intro done acc hacc hnew hnd
    obtain ⟨htdrest, hndrest⟩ := List.nodup_cons.mp hnd
    have hdone : td ∉ done := hnew td (List.mem_cons_self _ _)
    have hsubcols := subFor_cols df td hcan
    have hdup : (subFor df td).cols.filter
        (fun c => decide (c ∈ acc.cols ∧ c ∉ dfKeys)) = [] := by
      refine List.filter_eq_nil_iff.mpr ?_
      intro x hxmem
      simp only [decide_eq_true_eq, not_and, not_not]
      intro hxacc
      rw [hsubcols] at hxmem
      rcases List.mem_append.mp hxmem with hxk | hxl
      · exact hxk
      · obtain ⟨c, hcdf, hcv, rfl⟩ := mem_label_block hxl
        exfalso
        rw [hacc] at hxacc
        rcases List.mem_append.mp hxacc with hk | hfl
        · exact label_not_key hcv hk
        · obtain ⟨td', htd', hl'⟩ := List.mem_flatMap.mp hfl
          obtain ⟨c', _, hc'v, he⟩ := mem_label_block hl'
          exact hdone ((label_inj hcv hc'v he).2 ▸ htd')
    rw [List.foldl_cons]
    have hacc' : (mergeOuter acc
        (if (subFor df td).cols.filter (fun c => c ∈ acc.cols ∧ c ∉ dfKeys) = []
         then subFor df td
         else dropCols (subFor df td)
           ((subFor df td).cols.filter (fun c => c ∈ acc.cols ∧ c ∉ dfKeys)))).cols
        = dfKeys ++ (done ++ [td]).flatMap
            (fun td => (df.cols.filter (fun c => c ∈ value_cols)).map (fun c => labelOf c td)) := by
      rw [hdup, if_pos rfl]
      show acc.cols ++ (subFor df td).cols.filter (fun c => c ∉ dfKeys) = _
      rw [hsubcols, List.filter_append]
      have h1 : dfKeys.filter (fun c => decide (c ∉ dfKeys)) = [] := by decide
      have h2 : ((df.cols.filter (fun c => c ∈ value_cols)).map
          (fun c => labelOf c td)).filter (fun c => decide (c ∉ dfKeys))
          = (df.cols.filter (fun c => c ∈ value_cols)).map (fun c => labelOf c td) := by
        refine List.filter_eq_self.mpr ?_
        intro x hx
        obtain ⟨c, _, hcv, rfl⟩ := mem_label_block hx
        simpa using label_not_key hcv
      rw [h1, h2, List.nil_append, hacc, List.flatMap_append, List.append_assoc]
      simp
    have step := ih (done ++ [td]) _ hacc' (by
      intro t ht
      rw [List.mem_append]
      rintro (h | h)
      · exact hnew t (List.mem_cons_of_mem _ ht) h
      · simp only [List.mem_singleton] at h
        exact htdrest (h ▸ ht)) hndrest
    exact step.trans (by rw [show (done ++ [td]) ++ rest = done ++ td :: rest from by simp])

theorem mergedOf_cols (df : DataFrame) (hcan : ∀ c ∈ df.cols, c ∈ canonicalCols) :
    (mergedOf df).cols = dfKeys ++ (allDates df).flatMap
      (fun td => (df.cols.filter (fun c => c ∈ value_cols)).map (fun c => labelOf c td)) := by
  unfold mergedOf
  simpa using merge_fold_cols df hcan (allDates df) [] (baseKeys df) (by simp [baseKeys])
    (by simp) (allDates_nodup df)

theorem joinUrl_cols (df merged : DataFrame) :
    (joinUrl df merged).cols = "code" :: merged.cols.filter (fun c => c ≠ "code") ++ url_cols :=
  rfl

theorem label_mem_m2 {df : DataFrame} (hcan : ∀ c ∈ df.cols, c ∈ canonicalCols)
    {c td : String} (hcv : c ∈ value_cols) (htd : td ∈ allDates df) :
    labelOf c td ∈ (joinUrl df (mergedOf df)).cols ↔ c ∈ df.cols := by
  rw [joinUrl_cols, mergedOf_cols df hcan]
  constructor
  · intro h
    rcases List.mem_cons.mp h with he | h
    · exact absurd he (label_ne_of_no_underscore c td (by decide))
    rcases List.mem_append.mp h with h | h
    · have h' := (List.mem_filter.mp h).1
      rcases List.mem_append.mp h' with hk | hfl
      · exact absurd hk (label_not_key hcv)
      · obtain ⟨td', _, hl'⟩ := List.mem_flatMap.mp hfl
        obtain ⟨c', hc'df, hc'v, he⟩ := mem_label_block hl'
        obtain ⟨rfl, rfl⟩ := label_inj hcv hc'v he
        exact hc'df
    · exact absurd h (label_not_url hcv)
  · intro hcdf
    refine List.mem_cons.mpr (Or.inr (List.mem_append.mpr (Or.inl ?_)))
    refine List.mem_filter.mpr ⟨?_,
      by simpa using (show labelOf c td ≠ "code" from
        label_ne_of_no_underscore c td (by decide))⟩
    refine List.mem_append.mpr (Or.inr ?_)
    exact List.mem_flatMap.mpr ⟨td, htd,
      List.mem_map.mpr ⟨c, List.mem_filter.mpr ⟨hcdf, by simpa using hcv⟩, rfl⟩⟩

theorem orderedCols_eq (df : DataFrame) (hcan : ∀ c ∈ df.cols, c ∈ canonicalCols) :
    orderedCols df (joinUrl df (mergedOf df))
      = dfKeys ++ (allDates df).flatMap
          (fun td => (value_cols.filter (fun c => c ∈ df.cols)).map (fun c => labelOf c td))
        ++ url_cols.filter (fun c => c ∈ (joinUrl df (mergedOf df)).cols) := by
  unfold orderedCols
  congr 1
  congr 1
  refine List.flatMap_congr ?_
  intro td htd
  have : ∀ vs : List String, (∀ c ∈ vs, c ∈ value_cols) →
      vs.filterMap (fun c =>
        if labelOf c td ∈ (joinUrl df (mergedOf df)).cols then some (labelOf c td) else none)
        = (vs.filter (fun c => c ∈ df.cols)).map (fun c => labelOf c td) := by
    intro vs
    induction vs with
    | nil => intro _; rfl
    | cons a t iht =>
      intro hvs
      have hav : a ∈ value_cols := hvs a (List.mem_cons_self _ _)
      rw [List.filterMap_cons, List.filter_cons]
      by_cases hadf : a ∈ df.cols
      · rw [if_pos ((label_mem_m2 hcan hav htd).mpr hadf),
          show (decide (a ∈ df.cols)) = true from by simpa using hadf, if_pos rfl,
          List.map_cons, iht (fun c hc => hvs c (List.mem_cons_of_mem _ hc))]
      · rw [if_neg (fun hmem => hadf ((label_mem_m2 hcan hav htd).mp hmem)),
          show (decide (a ∈ df.cols)) = false from by simpa using hadf, if_neg (by simp),
          iht (fun c hc => hvs c (List.mem_cons_of_mem _ hc))]
  exact this value_cols (fun _ hc => hc)

theorem url_filter_m2 (df : DataFrame) :
    url_cols.filter (fun c => c ∈ (joinUrl df (mergedOf df)).cols) = url_cols := by
  refine List.filter_eq_self.mpr ?_
  intro u hu
  rw [joinUrl_cols]
  have : u ∈ ("code" :: ((mergedOf df).cols.filter (fun c => c ≠ "code") ++ url_cols)) :=
    List.mem_cons.mpr (Or.inr (List.mem_append.mpr (Or.inr hu)))
  simpa using this

theorem finalDf_cols (df : DataFrame) (hcan : ∀ c ∈ df.cols, c ∈ canonicalCols) :
    (finalDf df).cols = "日付" :: "コード" :: "企業名" :: "セクター" ::
      ((allDates df).flatMap
          (fun td => (value_cols.filter (fun c => c ∈ df.cols)).map (fun c => labelOf c td))
        ++ url_cols) := by
  show "日付" :: (orderedCols df (joinUrl df (mergedOf df))).map renameKey = _
  rw [orderedCols_eq df hcan, url_filter_m2 df, List.map_append, List.map_append]
  have h1 : dfKeys.map renameKey = ["コード", "企業名", "セクター"] := by decide
  have h2 : ((allDates df).flatMap
      (fun td => (value_cols.filter (fun c => c ∈ df.cols)).map (fun c => labelOf c td))).map
        renameKey
      = (allDates df).flatMap
          (fun td => (value_cols.filter (fun c => c ∈ df.cols)).map (fun c => labelOf c td)) := by
    have hpt : ∀ x ∈ (allDates df).flatMap
        (fun td => (value_cols.filter (fun c => c ∈ df.cols)).map (fun c => labelOf c td)),
        renameKey x = (fun y => y) x := by
      intro x hx
      obtain ⟨td, _, hxl⟩ := List.mem_flatMap.mp hx
      obtain ⟨c, hc, rfl⟩ := List.mem_map.mp hxl
      exact renameKey_label
    have := List.map_congr_left hpt
    simpa using this
  have h3 : url_cols.map renameKey = url_cols := by decide
  rw [h1, h2, h3]
  rfl

theorem mem_big_block {df : DataFrame} {x : String}
    (hx : x ∈ (allDates df).flatMap
      (fun td => (value_cols.filter (fun c => c ∈ df.cols)).map (fun c => labelOf c td))) :
    ∃ c td, c ∈ value_cols ∧ c ∈ df.cols ∧ td ∈ allDates df ∧ x = labelOf c td := by
  obtain ⟨td, htd, hxl⟩ := List.mem_flatMap.mp hx
  obtain ⟨c, hc, rfl⟩ := List.mem_map.mp hxl
  have hc' := List.mem_filter.mp hc
  exact ⟨c, td, hc'.1, by simpa using hc'.2, htd, rfl⟩

theorem big_block_nodup (df : DataFrame) :
    ((allDates df).flatMap
      (fun td => (value_cols.filter (fun c => c ∈ df.cols)).map (fun c => labelOf c td))).Nodup := by
  rw [List.nodup_flatMap]
  constructor
  · intro td _
    refine List.Nodup.map_on ?_ (List.Nodup.filter _ (by decide))
    intro a ha b hb he
    exact (label_inj (List.mem_filter.mp ha).1 (List.mem_filter.mp hb).1 he).1
  · refine (allDates_nodup df).imp ?_
    intro td td' hne
    intro x hx hx'
    obtain ⟨c, hc, rfl⟩ := List.mem_map.mp hx
    obtain ⟨c', hc', he⟩ := List.mem_map.mp hx'
    exact hne ((label_inj (List.mem_filter.mp hc).1 (List.mem_filter.mp hc').1 he.symm).2)

theorem finalDf_cols_nodup (df : DataFrame) (hcan : ∀ c ∈ df.cols, c ∈ canonicalCols) :
    (finalDf df).cols.Nodup := by
  rw [finalDf_cols df hcan]
  have hax : ∀ x ∈ (allDates df).flatMap
      (fun td => (value_cols.filter (fun c => c ∈ df.cols)).map (fun c => labelOf c td)),
      ∀ s : String, '_' ∉ s.data → x ≠ s := by
    intro x hx s hs
    obtain ⟨c, td, hcv, _, _, rfl⟩ := mem_big_block hx
    exact label_ne_of_no_underscore c td hs
  have hnu : ∀ x ∈ (allDates df).flatMap
      (fun td => (value_cols.filter (fun c => c ∈ df.cols)).map (fun c => labelOf c td)),
      x ∉ url_cols := by
    intro x hx
    obtain ⟨c, td, hcv, _, _, rfl⟩ := mem_big_block hx
    exact label_not_url hcv
  have htail : ((allDates df).flatMap
      (fun td => (value_cols.filter (fun c => c ∈ df.cols)).map (fun c => labelOf c td))
      ++ url_cols).Nodup :=
    List.Nodup.append (big_block_nodup df) (by decide) (fun x hx hx' => hnu x hx hx')
  have hm : ∀ s : String, '_' ∉ s.data → s ∉ url_cols →
      s ∉ ((allDates df).flatMap
        (fun td => (value_cols.filter (fun c => c ∈ df.cols)).map (fun c => labelOf c td))
        ++ url_cols) := by
    intro s hs hsu hmem
    rcases List.mem_append.mp hmem with h | h
    · exact hax s h s hs rfl
    · exact hsu h
  refine List.Nodup.cons ?_ (List.Nodup.cons ?_ (List.Nodup.cons ?_ (List.Nodup.cons ?_ htail)))
  · intro hmem
    rcases List.mem_cons.mp hmem with he | hmem
    · exact absurd he (by decide)
    rcases List.mem_cons.mp hmem with he | hmem
    · exact absurd he (by decide)
    rcases List.mem_cons.mp hmem with he | hmem
    · exact absurd he (by decide)
    · exact hm "日付" (by decide) (by decide) hmem
  · intro hmem
    rcases List.mem_cons.mp hmem with he | hmem
    · exact absurd he (by decide)
    rcases List.mem_cons.mp hmem with he | hmem
    · exact absurd he (by decide)
    · exact hm "コード" (by decide) (by decide) hmem
  · intro hmem
    rcases List.mem_cons.mp hmem with he | hmem
    · exact absurd he (by decide)
    · exact hm "企業名" (by decide) (by decide) hmem
  · exact hm "セクター" (by decide) (by decide)

/-! ## C4 -/

/-- C4 (corrected): the wide output's column order is fixed, but the
prepended date-list column `日付` comes first: then the localized entity-key
columns, then for each date in descending order each metric column present
in the input in its declared order (columns for metrics absent from the
input are omitted), then the three link columns; no column name appears
twice. -/
theorem reshape_fixed_column_order (df out : DataFrame) (hwf : WF df)
    (hne : df.rows ≠ []) (hok : reshape_data df = .ok out) :
    out.cols = "日付" :: "コード" :: "企業名" :: "セクター" ::
        ((allDates df).flatMap
          (fun td => (value_cols.filter (fun c => c ∈ df.cols)).map (fun c => labelOf c td))
          ++ url_cols) ∧
      List.Sorted (fun a b : String => pyStrLe b a = true) (allDates df) ∧
      out.cols.Nodup := by
  have hout : out = finalDf df := by
    rw [reshape_ok df hwf hne] at hok
    exact (Except.ok.inj hok).symm
  subst hout
  exact ⟨finalDf_cols df hwf.2.1, allDates_sorted df, finalDf_cols_nodup df hwf.2.1⟩

/-- C4 counterexample: the first output column is the date-list column
`日付`, not an entity-key column (neither a raw nor a localized key name),
refuting "entity key columns first". -/
theorem reshape_fixed_column_order_cex :
    reshape_data exDf = .ok (okOut (reshape_data exDf)) ∧
      (okOut (reshape_data exDf)).cols.head? = some "日付" ∧
      ("日付" : String) ∉ ["code", "name", "sector", "コード", "企業名", "セクター"] := by
  refine ⟨by decide, by decide, by decide⟩

/-- C4 witness: the amended statement applied at `exDf`. -/
theorem reshape_fixed_column_order_witness :
    WF exDf ∧
      ((okOut (reshape_data exDf)).cols = "日付" :: "コード" :: "企業名" :: "セクター" ::
          ((allDates exDf).flatMap
            (fun td =>
              (value_cols.filter (fun c => c ∈ exDf.cols)).map (fun c => labelOf c td))
            ++ url_cols) ∧
        List.Sorted (fun a b : String => pyStrLe b a = true) (allDates exDf) ∧
        (okOut (reshape_data exDf)).cols.Nodup) :=
  ⟨by decide, reshape_fixed_column_order exDf (okOut (reshape_data exDf))
    (by decide) (by decide) (by decide)⟩

/-! ## C8 -/

/-- C8: a metric column absent from the long-format input yields no wide
column at all — for no date does the output contain the corresponding
localized, date-suffixed column name. -/
theorem reshape_absent_metric (df out : DataFrame) (m : String) (hwf : WF df)
    (hne : df.rows ≠ []) (hok : reshape_data df = .ok out)
    (hm : m ∈ value_cols) (habs : m ∉ df.cols) :
    ∀ td, labelOf m td ∉ out.cols := by
  have hout : out = finalDf df := by
    rw [reshape_ok df hwf hne] at hok
    exact (Except.ok.inj hok).symm
  subst hout
  intro td hmem
  rw [finalDf_cols df hwf.2.1] at hmem
  rcases List.mem_cons.mp hmem with he | hmem
  · exact label_ne_of_no_underscore m td (by decide) he
  rcases List.mem_cons.mp hmem with he | hmem
  · exact label_ne_of_no_underscore m td (by decide) he
  rcases List.mem_cons.mp hmem with he | hmem
  · exact label_ne_of_no_underscore m td (by decide) he
  rcases List.mem_cons.mp hmem with he | hmem
  · exact label_ne_of_no_underscore m td (by decide) he
  rcases List.mem_append.mp hmem with h | h
  · obtain ⟨c, td', hcv, hcdf, _, he⟩ := mem_big_block h
    obtain ⟨rfl, rfl⟩ := label_inj hm hcv he
    exact habs hcdf
  · exact label_not_url hm h

/-- C8 witness: `exDf` carries only the `price` metric; the `per` metric is
absent and so is every `予想PER_<date>` column. -/
theorem reshape_absent_metric_witness :
    WF exDf ∧ ∀ td, labelOf "per" td ∉ (okOut (reshape_data exDf)).cols :=
  ⟨by decide, reshape_absent_metric exDf (okOut (reshape_data exDf)) "per"
    (by decide) (by decide) (by decide) (by decide) (by decide)⟩

/-! ## The most-recent-links lookup -/

theorem cellBefore_total (x y : Cell) : cellBefore x y ∨ cellBefore y x := by
  cases x <;> cases y <;> simp only [cellBefore] <;>
    first
    | trivial
    | exact (pyStrLe_total _ _).elim Or.inr Or.inl

theorem cellBefore_trans {x y z : Cell} (h1 : cellBefore x y) (h2 : cellBefore y z) :
    cellBefore x z := by
  cases x <;> cases y <;> cases z <;> simp only [cellBefore] at h1 h2 ⊢ <;>
    first
    | trivial
    | exact pyStrLe_trans h2 h1

theorem sortRows_sorted (l : List Row) : List.Sorted rowBefore (sortRows l) :=
  @List.sorted_insertionSort Row rowBefore (fun _ _ => inferInstance)
    ⟨fun _ _ => cellBefore_total _ _⟩
    ⟨fun _ _ _ h1 h2 => cellBefore_trans h1 h2⟩ l

theorem sortRows_perm (l : List Row) : (sortRows l).Perm l :=
  List.perm_insertionSort _ _

theorem find?_cons_pos {α : Type} (p : α → Bool) {r : α} {l : List α} (h : p r = true) :
    (r :: l).find? p = some r :=
  List.find?_cons_of_pos l h

theorem find?_cons_neg {α : Type} (p : α → Bool) {r : α} {l : List α} (h : ¬ p r = true) :
    (r :: l).find? p = l.find? p :=
  List.find?_cons_of_neg l h

theorem dedupByCodeAux_find (k : Cell) :
    ∀ (l : List Row) (seen : List Cell), k ∉ seen →
      (dedupByCodeAux seen l).find? (fun r => decide (lk r "code" = k))
        = l.find? (fun r => decide (lk r "code" = k)) := by
  intro l
  induction l with
  | nil => intro seen _; rfl
  | cons r rs ih =>
    intro seen hk
    by_cases hc : lk r "code" ∈ seen
    · rw [dedupByCodeAux, if_pos hc, ih seen hk]
      have hne : ¬ (fun r : Row => decide (lk r "code" = k)) r = true := by
        simp only [decide_eq_true_eq]
        intro he
        exact hk (he ▸ hc)
      rw [find?_cons_neg (fun r : Row => decide (lk r "code" = k)) hne]
    · rw [dedupByCodeAux, if_neg hc]
      by_cases hck : lk r "code" = k
      · have hp : (fun r : Row => decide (lk r "code" = k)) r = true := by simpa using hck
        rw [find?_cons_pos (fun r : Row => decide (lk r "code" = k)) hp,
          find?_cons_pos (fun r : Row => decide (lk r "code" = k)) hp]
      · have hp : ¬ (fun r : Row => decide (lk r "code" = k)) r = true := by simpa using hck
        rw [find?_cons_neg (fun r : Row => decide (lk r "code" = k)) hp,
          find?_cons_neg (fun r : Row => decide (lk r "code" = k)) hp]
        refine ih (lk r "code" :: seen) ?_
        intro hmem
        rcases List.mem_cons.mp hmem with he | hmem
        · exact hck he.symm
        · exact hk hmem

theorem sorted_find?_max {R : Row → Row → Prop} {p : Row → Bool} :
    ∀ {l : List Row} {a : Row}, List.Sorted R l → l.find? p = some a →
      ∀ b ∈ l, p b = true → b = a ∨ R a b := by
  intro l
  induction l with
  | nil => intro a _ hf; cases hf
  | cons x xs ih =>
    intro a hs hf b hb hpb
    obtain ⟨hx, hxs⟩ := List.pairwise_cons.mp hs
    by_cases hpx : p x = true
    · rw [find?_cons_pos p hpx] at hf
      obtain rfl := Option.some.inj hf
      rcases List.mem_cons.mp hb with rfl | hb'
      · exact Or.inl rfl
      · exact Or.inr (hx b hb')
    · rw [find?_cons_neg p hpx] at hf
      rcases List.mem_cons.mp hb with rfl | hb'
      · exact absurd hpb hpx
      · exact ih hxs hf b hb' hpb

theorem find?_map_urlrow (k : Cell) (l : List Row) :
    ((l.map (fun r => (lk r "code", url_cols.map (fun u => (u, lk r u))))).find?
        (fun p => decide (p.1 = k)))
      = (l.find? (fun r => decide (lk r "code" = k))).map
          (fun r => (lk r "code", url_cols.map (fun u => (u, lk r u)))) := by
  induction l with
  | nil => rfl
  | cons r rs ih =>
    by_cases hck : lk r "code" = k
    · rw [List.map_cons,
        find?_cons_pos (fun p : Cell × Row => decide (p.1 = k)) (by simpa using hck),
        find?_cons_pos (fun r : Row => decide (lk r "code" = k)) (by simpa using hck)]
      rfl
    · rw [List.map_cons,
        find?_cons_neg (fun p : Cell × Row => decide (p.1 = k)) (by simpa using hck),
        find?_cons_neg (fun r : Row => decide (lk r "code" = k)) (by simpa using hck),
        ih]

theorem urlDf_find (df : DataFrame) (rmax : Row) (hmem : rmax ∈ df.rows)
    (hmax : ∀ r ∈ df.rows, lk r "code" = lk rmax "code" →
      r = rmax ∨ cellLt (lk r "target_date") (lk rmax "target_date")) :
    (urlDf df).find? (fun p => decide (p.1 = lk rmax "code"))
      = some (lk rmax "code", url_cols.map (fun u => (u, lk rmax u))) := by
  unfold urlDf dedupByCode
  rw [find?_map_urlrow, dedupByCodeAux_find _ _ _ (List.not_mem_nil _)]
  have hfind : (sortRows df.rows).find? (fun r => decide (lk r "code" = lk rmax "code"))
      = some rmax := by
    cases hf : (sortRows df.rows).find? (fun r => decide (lk r "code" = lk rmax "code")) with
    | none =>
      exfalso
      have := List.find?_eq_none.mp hf rmax ((sortRows_perm df.rows).mem_iff.mpr hmem)
      simp at this
    | some rf =>
      have hprf : lk rf "code" = lk rmax "code" := by
        simpa using List.find?_some hf
      have hrfmem : rf ∈ df.rows :=
        (sortRows_perm df.rows).mem_iff.mp (List.mem_of_find?_eq_some hf)
      rcases hmax rf hrfmem hprf with rfl | hlt
      · rfl
      · rcases sorted_find?_max (sortRows_sorted df.rows) hf rmax
          ((sortRows_perm df.rows).mem_iff.mpr hmem) (by simp) with rfl | hR
        · rfl
        · exact absurd hR hlt.2
  rw [hfind]
  rfl

theorem map_fst_pairs (cs : List String) (g : String → Cell) :
    (cs.map (fun c => (c, g c))).map Prod.fst = cs := by
  rw [List.map_map]
  exact List.map_id _

theorem rename_select_row (cs : List String) (r : Row) :
    (cs.map (fun c => (c, lk r c))).map (fun p => (renameKey p.1, p.2))
      = cs.map (fun c => (renameKey c, lk r c)) := by
  rw [List.map_map]
  rfl

theorem finalDf_rows (df : DataFrame) :
    (finalDf df).rows = (joinUrl df (mergedOf df)).rows.map
      (fun r => ("日付", some (String.intercalate "," (allDates df))) ::
        (orderedCols df (joinUrl df (mergedOf df))).map (fun c => (renameKey c, lk r c))) := by
  show (insertDateCol (allDates df)
      (renameKeys (selectCols (joinUrl df (mergedOf df))
        (orderedCols df (joinUrl df (mergedOf df)))))).rows = _
  unfold insertDateCol renameKeys selectCols
  dsimp only
  rw [List.map_map, List.map_map]
  refine List.map_congr_left ?_
  intro r _
  dsimp only [Function.comp]
  rw [rename_select_row]

theorem orderedCols_cases (df : DataFrame) (hcan : ∀ c ∈ df.cols, c ∈ canonicalCols)
    {y : String} (hy : y ∈ orderedCols df (joinUrl df (mergedOf df))) :
    y ∈ dfKeys ∨ (∃ c td, c ∈ value_cols ∧ y = labelOf c td) ∨ y ∈ url_cols := by
  rw [orderedCols_eq df hcan, url_filter_m2 df] at hy
  rcases List.mem_append.mp hy with h | h
  · rcases List.mem_append.mp h with h | h
    · exact Or.inl h
    · obtain ⟨c, td, hcv, _, _, rfl⟩ := mem_big_block h
      exact Or.inr (Or.inl ⟨c, td, hcv, rfl⟩)
  · exact Or.inr (Or.inr h)

theorem lk_final_at (df : DataFrame) (hcan : ∀ c ∈ df.cols, c ∈ canonicalCols)
    (r : Row) (v : Cell) (c0 x : String)
    (hx : x ∈ orderedCols df (joinUrl df (mergedOf df)))
    (hd : "日付" ≠ c0) (hrx : renameKey x = c0)
    (hkey : ∀ y ∈ dfKeys, renameKey y = c0 → y = x)
    (hlab : ∀ c td, c ∈ value_cols → renameKey (labelOf c td) = c0 → labelOf c td = x)
    (hurl : ∀ y ∈ url_cols, renameKey y = c0 → y = x) :
    lk (("日付", v) :: (orderedCols df (joinUrl df (mergedOf df))).map
      (fun c => (renameKey c, lk r c))) c0 = lk r x := by
  rw [lk_cons_ne hd]
  refine lk_map_keyed hx hrx ?_
  intro y hy hry
  rcases orderedCols_cases df hcan hy with h | ⟨c, td, hcv, rfl⟩ | h
  · rw [hkey y h hry]
  · rw [hlab c td hcv hry]
  · rw [hurl y h hry]

theorem code_mem_ordered (df : DataFrame) :
    "code" ∈ orderedCols df (joinUrl df (mergedOf df)) := by
  show "code" ∈ dfKeys ++ _
  exact List.mem_append.mpr (Or.inl (by decide))

theorem name_mem_ordered (df : DataFrame) :
    "name" ∈ orderedCols df (joinUrl df (mergedOf df)) := by
  show "name" ∈ dfKeys ++ _
  exact List.mem_append.mpr (Or.inl (by decide))

theorem sector_mem_ordered (df : DataFrame) :
    "sector" ∈ orderedCols df (joinUrl df (mergedOf df)) := by
  show "sector" ∈ dfKeys ++ _
  exact List.mem_append.mpr (Or.inl (by decide))

theorem url_mem_ordered (df : DataFrame) (hcan : ∀ c ∈ df.cols, c ∈ canonicalCols)
    {u : String} (hu : u ∈ url_cols) :
    u ∈ orderedCols df (joinUrl df (mergedOf df)) := by
  rw [orderedCols_eq df hcan, url_filter_m2 df]
  exact List.mem_append.mpr (Or.inr hu)

theorem lk_final_code (df : DataFrame) (hcan : ∀ c ∈ df.cols, c ∈ canonicalCols)
    (r : Row) (v : Cell) :
    lk (("日付", v) :: (orderedCols df (joinUrl df (mergedOf df))).map
      (fun c => (renameKey c, lk r c))) "コード" = lk r "code" := by
  refine lk_final_at df hcan r v "コード" "code" (code_mem_ordered df)
    (by decide) (by decide) (by decide) ?_ (by decide)
  intro c td hcv hry
  rw [renameKey_label] at hry
  exact absurd hry (label_ne_of_no_underscore c td (by decide))

theorem lk_final_name (df : DataFrame) (hcan : ∀ c ∈ df.cols, c ∈ canonicalCols)
    (r : Row) (v : Cell) :
    lk (("日付", v) :: (orderedCols df (joinUrl df (mergedOf df))).map
      (fun c => (renameKey c, lk r c))) "企業名" = lk r "name" := by
  refine lk_final_at df hcan r v "企業名" "name" (name_mem_ordered df)
    (by decide) (by decide) (by decide) ?_ (by decide)
  intro c td hcv hry
  rw [renameKey_label] at hry
  exact absurd hry (label_ne_of_no_underscore c td (by decide))

theorem lk_final_sector (df : DataFrame) (hcan : ∀ c ∈ df.cols, c ∈ canonicalCols)
    (r : Row) (v : Cell) :
    lk (("日付", v) :: (orderedCols df (joinUrl df (mergedOf df))).map
      (fun c => (renameKey c, lk r c))) "セクター" = lk r "sector" := by
  refine lk_final_at df hcan r v "セクター" "sector" (sector_mem_ordered df)
    (by decide) (by decide) (by decide) ?_ (by decide)
  intro c td hcv hry
  rw [renameKey_label] at hry
  exact absurd hry (label_ne_of_no_underscore c td (by decide))

theorem lk_final_url (df : DataFrame) (hcan : ∀ c ∈ df.cols, c ∈ canonicalCols)
    (r : Row) (v : Cell) {u : String} (hu : u ∈ url_cols) :
    lk (("日付", v) :: (orderedCols df (joinUrl df (mergedOf df))).map
      (fun c => (renameKey c, lk r c))) u = lk r u := by
  have hfix : ∀ y ∈ url_cols, renameKey y = y := by decide
  refine lk_final_at df hcan r v u u (url_mem_ordered df hcan hu)
    ?_ ?_ ?_ ?_ ?_
  · exact (show ∀ u' ∈ url_cols, "日付" ≠ u' by decide) u hu
  · exact hfix u hu
  · intro y hy hry
    exact absurd hry ((show ∀ y ∈ dfKeys, ∀ u' ∈ url_cols, renameKey y ≠ u' by decide)
      y hy u hu)
  · intro c td hcv hry
    rw [renameKey_label] at hry
    exact absurd (hry ▸ hu) (label_not_url hcv)
  · intro y hy hry
    rw [hfix y hy] at hry
    exact hry

/-! ## C2 -/

/-- Link attachment on the final frame: every output row carrying `rmax`'s
code receives `rmax`'s link cells. -/
theorem finalDf_recent_links (df : DataFrame) (rmax : Row) (hwf : WF df)
    (hmem : rmax ∈ df.rows)
    (hmax : ∀ r ∈ df.rows, lk r "code" = lk rmax "code" →
      r = rmax ∨ cellLt (lk r "target_date") (lk rmax "target_date")) :
    ∀ o ∈ (finalDf df).rows, lk o "コード" = lk rmax "code" →
      ∀ u ∈ url_cols, lk o u = lk rmax u := by
  have hcan := hwf.2.1
  intro o ho hcode u hu
  rw [finalDf_rows df] at ho
  obtain ⟨r2, hr2, rfl⟩ := List.mem_map.mp ho
  have hm2 : (joinUrl df (mergedOf df)).rows = (mergedOf df).rows.map
      (fun m => ("code", lk m "code") ::
        (((mergedOf df).cols.filter (fun c => c ≠ "code")).map (fun c => (c, lk m c)) ++
          (match ((urlDf df).find? (fun p => p.1 = lk m "code")).map Prod.snd with
           | some ur => ur
           | none => url_cols.map (fun c => (c, (none : Cell)))))) := rfl
  rw [hm2] at hr2
  obtain ⟨m, hm, rfl⟩ := List.mem_map.mp hr2
  have hk : lk m "code" = lk rmax "code" := by
    have hoc := lk_final_code df hcan (("code", lk m "code") ::
      (((mergedOf df).cols.filter (fun c => c ≠ "code")).map (fun c => (c, lk m c)) ++
        (match ((urlDf df).find? (fun p => p.1 = lk m "code")).map Prod.snd with
         | some ur => ur
         | none => url_cols.map (fun c => (c, (none : Cell))))))
      (some (String.intercalate "," (allDates df)))
    rw [lk_cons_self] at hoc
    exact hoc.symm.trans hcode
  have hcu : ("code" : String) ≠ u := (show ∀ u' ∈ url_cols, "code" ≠ u' by decide) u hu
  rw [lk_final_url df hcan _ _ hu, lk_cons_ne hcu, lk_append_right, hk,
    urlDf_find df rmax hmem hmax]
  · exact lk_map_pairs hu
  · rw [map_fst_pairs]
    intro humem
    have := (List.mem_filter.mp humem).1
    rw [mergedOf_cols df hcan] at this
    rcases List.mem_append.mp this with h | h
    · exact (show ∀ u' ∈ url_cols, u' ∉ dfKeys by decide) u hu h
    · obtain ⟨td, _, hl⟩ := List.mem_flatMap.mp h
      obtain ⟨c, _, hcv, he⟩ := mem_label_block hl
      exact label_not_url hcv (he ▸ hu)

/-- C2: in the wide output, every row carrying an entity code receives as
reference-link values exactly the link cells of the input row that attains
the strictly most recent date among that code's rows (`rmax`, characterized
by the hypothesis: every other row with the same code has a strictly older
date cell). -/
theorem reshape_recent_links (df out : DataFrame) (rmax : Row) (hwf : WF df)
    (hok : reshape_data df = .ok out) (hmem : rmax ∈ df.rows)
    (hmax : ∀ r ∈ df.rows, lk r "code" = lk rmax "code" →
      r = rmax ∨ cellLt (lk r "target_date") (lk rmax "target_date")) :
    ∀ o ∈ out.rows, lk o "コード" = lk rmax "code" →
      ∀ u ∈ url_cols, lk o u = lk rmax u := by
  have hne : df.rows ≠ [] := List.ne_nil_of_mem hmem
  have hout : out = finalDf df := by
    rw [reshape_ok df hwf hne] at hok
    exact (Except.ok.inj hok).symm
  subst hout
  exact finalDf_recent_links df rmax hwf hmem hmax

/-- C2 witness: the statement applied at `exDf`, whose most recent row for
code `1111` is its second row (date 20250802). -/
theorem reshape_recent_links_witness :
    WF exDf ∧
      ∀ o ∈ (okOut (reshape_data exDf)).rows,
        lk o "コード" = lk (exDf.rows.get ⟨1, by decide⟩) "code" →
        ∀ u ∈ url_cols, lk o u = lk (exDf.rows.get ⟨1, by decide⟩) u :=
  ⟨by decide,
    reshape_recent_links exDf (okOut (reshape_data exDf)) (exDf.rows.get ⟨1, by decide⟩)
      (by decide) (by decide) (by decide) (by decide)⟩

/-! ## Row structure of the merge: key tuples -/

theorem mem_dedupRowsAux : ∀ (l : List Row) (seen : List Row) (x : Row),
    x ∈ dedupRowsAux seen l ↔ (x ∈ l ∧ x ∉ seen) := by
  intro l
  induction l with
  | nil => intro seen x; simp [dedupRowsAux]
  | cons r rs ih =>
    intro seen x
    by_cases hr : r ∈ seen
    · rw [dedupRowsAux, if_pos hr, ih]
      constructor
      · rintro ⟨h1, h2⟩; exact ⟨List.mem_cons_of_mem _ h1, h2⟩
      · rintro ⟨h1, h2⟩
        rcases List.mem_cons.mp h1 with rfl | h1'
        · exact absurd hr h2
        · exact ⟨h1', h2⟩
    · rw [dedupRowsAux, if_neg hr]
      constructor
      · intro hmem
        rcases List.mem_cons.mp hmem with rfl | hmem'
        · exact ⟨List.mem_cons_self _ _, hr⟩
        · obtain ⟨h1, h2⟩ := (ih (r :: seen) x).mp hmem'
          exact ⟨List.mem_cons_of_mem _ h1,
            fun hx => h2 (List.mem_cons_of_mem _ hx)⟩
      · rintro ⟨h1, h2⟩
        by_cases hxr : x = r
        · exact hxr ▸ List.mem_cons_self _ _
        · rcases List.mem_cons.mp h1 with rfl | h1'
          · exact absurd rfl hxr
          · refine List.mem_cons_of_mem _ ((ih (r :: seen) x).mpr ⟨h1', ?_⟩)
            intro hx
            rcases List.mem_cons.mp hx with he | hx'
            · exact hxr he
            · exact h2 hx'

theorem nodup_dedupRowsAux : ∀ (l : List Row) (seen : List Row),
    (dedupRowsAux seen l).Nodup := by
  intro l
  induction l with
  | nil => intro seen; exact List.nodup_nil
  | cons r rs ih =>
    intro seen
    by_cases hr : r ∈ seen
    · rw [dedupRowsAux, if_pos hr]; exact ih seen
    · rw [dedupRowsAux, if_neg hr]
      refine List.Nodup.cons ?_ (ih (r :: seen))
      intro hmem
      exact ((mem_dedupRowsAux rs (r :: seen) r).mp hmem).2 (List.mem_cons_self _ _)

theorem mem_dedupRows {l : List Row} {x : Row} : x ∈ dedupRows l ↔ x ∈ l := by
  unfold dedupRows
  rw [mem_dedupRowsAux]
  simp

theorem nodup_dedupRows (l : List Row) : (dedupRows l).Nodup :=
  nodup_dedupRowsAux l []

/-- The projection of a row to its key columns (`df[keys]` row). -/
theorem keyOf_keyrow (r : Row) :
    keyOf (dfKeys.map (fun c => (c, lk r c))) = keyOf r := by
  unfold keyOf
  refine List.map_congr_left ?_
  intro c0 hc0
  rw [lk_map_pairs hc0]

theorem keyrow_inj {r r' : Row} (h : keyOf r = keyOf r') :
    dfKeys.map (fun c => (c, lk r c)) = dfKeys.map (fun c => (c, lk r' c)) := by
  unfold keyOf dfKeys at h
  simp only [List.map_cons, List.map_nil, List.cons.injEq, and_true] at h
  obtain ⟨h1, h2, h3⟩ := h
  show [("code", lk r "code"), ("name", lk r "name"), ("sector", lk r "sector")]
    = [("code", lk r' "code"), ("name", lk r' "name"), ("sector", lk r' "sector")]
  rw [h1, h2, h3]

theorem baseKeys_nodup_keys (df : DataFrame) :
    ((baseKeys df).rows.map keyOf).Nodup := by
  refine List.Nodup.map_on ?_ (nodup_dedupRows _)
  intro x hx y hy he
  obtain ⟨r, _, rfl⟩ := List.mem_map.mp (mem_dedupRows.mp hx)
  obtain ⟨r', _, rfl⟩ := List.mem_map.mp (mem_dedupRows.mp hy)
  rw [keyOf_keyrow] at he
  rw [keyOf_keyrow] at he
  exact keyrow_inj he

theorem keyOf_mem_baseKeys {df : DataFrame} {r : Row} (hr : r ∈ df.rows) :
    keyOf r ∈ (baseKeys df).rows.map keyOf := by
  refine List.mem_map.mpr ⟨dfKeys.map (fun c => (c, lk r c)), ?_, keyOf_keyrow r⟩
  exact mem_dedupRows.mpr (List.mem_map.mpr ⟨r, hr, rfl⟩)

theorem lk_filter_nin {r : Row} {ds : List String} {c : String} (h : c ∉ ds) :
    lk (r.filter (fun p => p.1 ∉ ds)) c = lk r c := by
  induction r with
  | nil => rfl
  | cons p t ih =>
    obtain ⟨a, v⟩ := p
    simp only [decide_not] at ih
    by_cases ha : a ∈ ds
    · have hac : a ≠ c := fun e => h (e ▸ ha)
      simp [List.filter_cons, ha, lk, hac, decide_not, ih]
    · by_cases hac : a = c
      · subst hac; simp [List.filter_cons, ha, lk, decide_not]
      · simp [List.filter_cons, ha, lk, hac, decide_not, ih]

theorem subFor_rows (df : DataFrame) (td : String) :
    (subFor df td).rows = (df.rows.filter (fun r => lk r "target_date" = some td)).map
      (fun r => (dfKeys ++
          (((df.cols.filter (fun c => c ∉ ("target_date" :: url_cols))).map (renFor td)).filter
            (fun c => c ∉ dfKeys))).map
        (fun c => (c, lk ((r.filter (fun p => p.1 ∉ ("target_date" :: url_cols))).map
          (fun p => (renFor td p.1, p.2))) c))) := by
  show ((((df.rows.filter _).map _).map _).map _) = _
  rw [List.map_map, List.map_map]
  rfl

theorem keyOf_subTransform (df : DataFrame) (td : String) (r : Row) :
    keyOf ((dfKeys ++
        (((df.cols.filter (fun c => c ∉ ("target_date" :: url_cols))).map (renFor td)).filter
          (fun c => c ∉ dfKeys))).map
      (fun c => (c, lk ((r.filter (fun p => p.1 ∉ ("target_date" :: url_cols))).map
        (fun p => (renFor td p.1, p.2))) c)))
      = keyOf r := by
  unfold keyOf
  refine List.map_congr_left ?_
  intro c0 hc0
  have hnv : c0 ∉ value_cols := (show ∀ c ∈ dfKeys, c ∉ value_cols by decide) c0 hc0
  have hnd : c0 ∉ ("target_date" :: url_cols) :=
    (show ∀ c ∈ dfKeys, c ∉ ("target_date" :: url_cols) by decide) c0 hc0
  rw [lk_map_pairs (List.mem_append.mpr (Or.inl hc0))]
  have hren : lk ((r.filter (fun p => p.1 ∉ ("target_date" :: url_cols))).map
      (fun p => (renFor td p.1, p.2))) c0
      = lk (r.filter (fun p => p.1 ∉ ("target_date" :: url_cols))) c0 := by
    refine lk_rename ?_ ?_
    · intro x hx
      by_cases hxv : x ∈ value_cols
      · unfold renFor at hx
        rw [if_pos hxv] at hx
        exact absurd (hx ▸ hc0) (label_not_key hxv)
      · unfold renFor at hx
        rwa [if_neg hxv] at hx
    · unfold renFor
      rw [if_neg hnv]
  rw [hren, lk_filter_nin hnd]

theorem mem_subFor_rows {df : DataFrame} {td : String} {s : Row}
    (hs : s ∈ (subFor df td).rows) :
    ∃ r ∈ df.rows, lk r "target_date" = some td ∧ keyOf s = keyOf r := by
  rw [subFor_rows] at hs
  obtain ⟨r, hr, rfl⟩ := List.mem_map.mp hs
  have hrr := List.mem_filter.mp hr
  exact ⟨r, hrr.1, by simpa using hrr.2, keyOf_subTransform df td r⟩

theorem subFor_pairwise (df : DataFrame) (td : String) (huniq : UniqueDateCode df) :
    List.Pairwise (fun a b => keyOf a ≠ keyOf b) (subFor df td).rows := by
  rw [subFor_rows, List.pairwise_map]
  have hfil := List.Pairwise.filter
    (fun r => decide (lk r "target_date" = some td)) huniq
  refine hfil.imp_of_mem ?_
  intro a b ha hb hne
  rw [keyOf_subTransform, keyOf_subTransform]
  intro hkey
  have hda : lk a "target_date" = some td := by simpa using (List.mem_filter.mp ha).2
  have hdb : lk b "target_date" = some td := by simpa using (List.mem_filter.mp hb).2
  refine hne ⟨hda.trans hdb.symm, ?_⟩
  have : [lk a "code", lk a "name", lk a "sector"] = [lk b "code", lk b "name", lk b "sector"] := by
    simpa [keyOf, dfKeys] using hkey
  exact (List.cons.inj this).1

theorem pairwise_filter_len {l : List Row}
    (h : List.Pairwise (fun a b => keyOf a ≠ keyOf b) l) (v : List Cell) :
    (l.filter (fun r => decide (keyOf r = v))).length ≤ 1 := by
  induction l with
  | nil => simp
  | cons x xs ih =>
    obtain ⟨hx, hxs⟩ := List.pairwise_cons.mp h
    by_cases hxv : keyOf x = v
    · rw [List.filter_cons_of_pos (by simpa using hxv)]
      have hnil : xs.filter (fun r => decide (keyOf r = v)) = [] := by
        refine List.filter_eq_nil_iff.mpr ?_
        intro b hb
        simp only [decide_eq_true_eq]
        intro he
        exact hx b hb (hxv ▸ he ▸ rfl)
      rw [hnil]
      simp
    · rw [List.filter_cons_of_neg (by simpa using hxv)]
      exact ih hxs

theorem flatten_map_keyOf : ∀ (L : List Row) (F : Row → List Row),
    (∀ l ∈ L, (F l).map keyOf = [keyOf l]) →
    ((L.map F).flatten).map keyOf = L.map keyOf := by
  intro L
  induction L with
  | nil => intro F _; rfl
  | cons l ls ih =>
    intro F hF
    rw [List.map_cons, List.flatten_cons, List.map_append,
      hF l (List.mem_cons_self _ _), ih F (fun x hx => hF x (List.mem_cons_of_mem _ hx)),
      List.map_cons, List.singleton_append]

theorem mergeOuter_keys (left right : DataFrame)
    (halign : ∀ r ∈ left.rows, r.map Prod.fst = left.cols)
    (hkeys : ∀ c ∈ dfKeys, c ∈ left.cols)
    (hsub : ∀ r ∈ right.rows, ∃ l ∈ left.rows, keyOf l = keyOf r)
    (hdist : List.Pairwise (fun a b => keyOf a ≠ keyOf b) right.rows) :
    (mergeOuter left right).rows.map keyOf = left.rows.map keyOf
      ∧ ∀ r ∈ (mergeOuter left right).rows,
          r.map Prod.fst = (mergeOuter left right).cols := by
  have hrp : right.rows.filter
      (fun r => ¬ left.rows.any (fun l => keyOf l = keyOf r)) = [] := by
    refine List.filter_eq_nil_iff.mpr ?_
    intro r hr
    obtain ⟨l, hl, he⟩ := hsub r hr
    simp only [decide_eq_true_eq]
    intro hnot
    exact hnot (List.any_eq_true.mpr ⟨l, hl, by simpa using he⟩)
  have hkcomb : ∀ l ∈ left.rows, ∀ g : String → Cell,
      keyOf (l ++ (right.cols.filter (fun c => c ∉ dfKeys)).map (fun c => (c, g c)))
        = keyOf l := by
    intro l hl g
    unfold keyOf
    refine List.map_congr_left ?_
    intro c0 hc0
    exact lk_append_left (by rw [halign l hl]; exact hkeys c0 hc0)
  have hmap : ∀ l ∈ left.rows,
      ((fun l => if right.rows.filter (fun r => keyOf r = keyOf l) = []
        then [l ++ (right.cols.filter (fun c => c ∉ dfKeys)).map
          (fun c => (c, (none : Cell)))]
        else (right.rows.filter (fun r => keyOf r = keyOf l)).map
          (fun r => l ++ (right.cols.filter (fun c => c ∉ dfKeys)).map
            (fun c => (c, lk r c)))) l).map keyOf = [keyOf l] := by
    intro l hl
    dsimp only
    by_cases hms : right.rows.filter (fun r => keyOf r = keyOf l) = []
    · rw [if_pos hms, List.map_cons, List.map_nil, hkcomb l hl]
    · rw [if_neg hms]
      cases hms' : right.rows.filter (fun r => keyOf r = keyOf l) with
      | nil => exact absurd hms' hms
      | cons m rest =>
        have hlen := pairwise_filter_len hdist (keyOf l)
        rw [hms'] at hlen
        have hrest : rest = [] := by
          cases rest with
          | nil => rfl
          | cons y ys => simp at hlen
        subst hrest
        rw [List.map_cons, List.map_nil, List.map_cons, List.map_nil, hkcomb l hl]
  constructor
  · show ((left.rows.map _).flatten ++ _).map keyOf = _
    rw [hrp, List.map_nil, List.append_nil, flatten_map_keyOf left.rows _ hmap]
  · intro r hr
    have hr' : r ∈ (left.rows.map (fun l =>
        if right.rows.filter (fun r => keyOf r = keyOf l) = []
        then [l ++ (right.cols.filter (fun c => c ∉ dfKeys)).map
          (fun c => (c, (none : Cell)))]
        else (right.rows.filter (fun r => keyOf r = keyOf l)).map
          (fun r => l ++ (right.cols.filter (fun c => c ∉ dfKeys)).map
            (fun c => (c, lk r c))))).flatten := by
      have : (mergeOuter left right).rows
          = (left.rows.map _).flatten ++ _ := rfl
      rw [this, hrp, List.map_nil, List.append_nil] at hr
      exact hr
    obtain ⟨L', hL', hrL⟩ := List.mem_flatten.mp hr'
    obtain ⟨l, hl, rfl⟩ := List.mem_map.mp hL'
    have hshape : ∀ g : String → Cell,
        (l ++ (right.cols.filter (fun c => c ∉ dfKeys)).map
          (fun c => (c, g c))).map Prod.fst = (mergeOuter left right).cols := by
      intro g
      show _ = left.cols ++ right.cols.filter (fun c => c ∉ dfKeys)
      rw [List.map_append, halign l hl, map_fst_pairs]
    by_cases hms : right.rows.filter (fun r => keyOf r = keyOf l) = []
    · rw [if_pos hms] at hrL
      rcases List.mem_cons.mp hrL with rfl | h
      · exact hshape _
      · cases h
    · rw [if_neg hms] at hrL
      obtain ⟨m, _, rfl⟩ := List.mem_map.mp hrL
      exact hshape _

theorem keyOf_filter_drop {cs : List String} (hcs : ∀ c ∈ cs, c ∉ dfKeys) (r : Row) :
    keyOf (r.filter (fun p => p.1 ∉ cs)) = keyOf r := by
  unfold keyOf
  refine List.map_congr_left ?_
  intro c0 hc0
  refine lk_filter_nin ?_
  intro hmem
  exact hcs c0 hmem hc0

theorem mergeStep_keys (df acc : DataFrame) (td : String) (huniq : UniqueDateCode df)
    (hinv : acc.rows.map keyOf = (baseKeys df).rows.map keyOf)
    (halign : ∀ r ∈ acc.rows, r.map Prod.fst = acc.cols)
    (hkeys : ∀ c ∈ dfKeys, c ∈ acc.cols) :
    (mergeStep df acc td).rows.map keyOf = (baseKeys df).rows.map keyOf
      ∧ (∀ r ∈ (mergeStep df acc td).rows, r.map Prod.fst = (mergeStep df acc td).cols)
      ∧ (∀ c ∈ dfKeys, c ∈ (mergeStep df acc td).cols) := by
  have hsub : ∀ s ∈ (subFor df td).rows, ∃ l ∈ acc.rows, keyOf l = keyOf s := by
    intro s hs
    obtain ⟨r, hr, _, hks⟩ := mem_subFor_rows hs
    have : keyOf r ∈ acc.rows.map keyOf := by
      rw [hinv]; exact keyOf_mem_baseKeys hr
    obtain ⟨l, hl, he⟩ := List.mem_map.mp this
    exact ⟨l, hl, by rw [he, hks]⟩
  have hdist := subFor_pairwise df td huniq
  have main : ∀ right : DataFrame,
      (∀ s ∈ right.rows, ∃ l ∈ acc.rows, keyOf l = keyOf s) →
      List.Pairwise (fun a b => keyOf a ≠ keyOf b) right.rows →
      (mergeOuter acc right).rows.map keyOf = (baseKeys df).rows.map keyOf
        ∧ (∀ r ∈ (mergeOuter acc right).rows,
            r.map Prod.fst = (mergeOuter acc right).cols)
        ∧ (∀ c ∈ dfKeys, c ∈ (mergeOuter acc right).cols) := by
    intro right hs hd
    obtain ⟨h1, h2⟩ := mergeOuter_keys acc right halign hkeys hs hd
    refine ⟨h1.trans hinv, h2, ?_⟩
    intro c hc
    show c ∈ acc.cols ++ _
    exact List.mem_append.mpr (Or.inl (hkeys c hc))
  unfold mergeStep
  dsimp only
  by_cases hdup : (subFor df td).cols.filter (fun c => c ∈ acc.cols ∧ c ∉ dfKeys) = []
  · rw [if_pos hdup]
    exact main (subFor df td) hsub hdist
  · rw [if_neg hdup]
    have hdropkeys : ∀ c ∈ (subFor df td).cols.filter
        (fun c => c ∈ acc.cols ∧ c ∉ dfKeys), c ∉ dfKeys := by
      intro c hc
      have := (List.mem_filter.mp hc).2
      simp only [decide_eq_true_eq] at this
      exact this.2
    refine main _ ?_ ?_
    · intro s hs
      obtain ⟨s0, hs0, rfl⟩ := List.mem_map.mp hs
      obtain ⟨l, hl, he⟩ := hsub s0 hs0
      exact ⟨l, hl, by rw [keyOf_filter_drop hdropkeys, he]⟩
    · show List.Pairwise _ ((subFor df td).rows.map _)
      rw [List.pairwise_map]
      refine hdist.imp ?_
      intro a b hne
      rw [keyOf_filter_drop hdropkeys, keyOf_filter_drop hdropkeys]
      exact hne

theorem merge_fold_keys (df : DataFrame) (huniq : UniqueDateCode df) :
    ∀ (dts : List String) (acc : DataFrame),
      acc.rows.map keyOf = (baseKeys df).rows.map keyOf →
      (∀ r ∈ acc.rows, r.map Prod.fst = acc.cols) →
      (∀ c ∈ dfKeys, c ∈ acc.cols) →
      (dts.foldl (mergeStep df) acc).rows.map keyOf = (baseKeys df).rows.map keyOf := by
  intro dts
  induction dts with
  | nil => intro acc h _ _; exact h
  | cons td rest ih =>
    intro acc hinv halign hkeys
    rw [List.foldl_cons]
    obtain ⟨h1, h2, h3⟩ := mergeStep_keys df acc td huniq hinv halign hkeys
    exact ih (mergeStep df acc td) h1 h2 h3

theorem mergedOf_keys (df : DataFrame) (huniq : UniqueDateCode df) :
    (mergedOf df).rows.map keyOf = (baseKeys df).rows.map keyOf := by
  unfold mergedOf
  refine merge_fold_keys df huniq (allDates df) (baseKeys df) rfl ?_ ?_
  · intro r hr
    obtain ⟨r0, _, rfl⟩ := List.mem_map.mp (mem_dedupRows.mp hr)
    exact map_fst_pairs _ _
  · intro c hc
    exact hc

theorem lk_jrow_key (df : DataFrame) (hcan : ∀ c ∈ df.cols, c ∈ canonicalCols)
    (m : Row) {c0 : String} (hc0 : c0 ∈ dfKeys) :
    lk (("code", lk m "code") ::
      (((mergedOf df).cols.filter (fun c => c ≠ "code")).map (fun c => (c, lk m c)) ++
        (match ((urlDf df).find? (fun p => p.1 = lk m "code")).map Prod.snd with
         | some ur => ur
         | none => url_cols.map (fun c => (c, (none : Cell)))))) c0 = lk m c0 := by
  by_cases hcode : c0 = "code"
  · subst hcode
    exact lk_cons_self
  · have hcc : ("code" : String) ≠ c0 := fun e => hcode e.symm
    rw [lk_cons_ne hcc]
    have hmem : c0 ∈ (mergedOf df).cols.filter (fun c => c ≠ "code") := by
      refine List.mem_filter.mpr ⟨?_, by simpa using hcode⟩
      rw [mergedOf_cols df hcan]
      exact List.mem_append.mpr (Or.inl hc0)
    rw [lk_append_left (by rw [map_fst_pairs]; exact hmem)]
    exact lk_map_pairs hmem

theorem finalDf_keyJP (df : DataFrame) (hcan : ∀ c ∈ df.cols, c ∈ canonicalCols) :
    (finalDf df).rows.map (fun o => [lk o "コード", lk o "企業名", lk o "セクター"])
      = (mergedOf df).rows.map keyOf := by
  rw [finalDf_rows df, List.map_map]
  have hm2 : (joinUrl df (mergedOf df)).rows = (mergedOf df).rows.map
      (fun m => ("code", lk m "code") ::
        (((mergedOf df).cols.filter (fun c => c ≠ "code")).map (fun c => (c, lk m c)) ++
          (match ((urlDf df).find? (fun p => p.1 = lk m "code")).map Prod.snd with
           | some ur => ur
           | none => url_cols.map (fun c => (c, (none : Cell)))))) := rfl
  rw [hm2, List.map_map]
  refine List.map_congr_left ?_
  intro m _
  dsimp only [Function.comp]
  rw [lk_final_code df hcan, lk_final_name df hcan, lk_final_sector df hcan,
    lk_jrow_key df hcan m (show ("code" : String) ∈ dfKeys by decide),
    lk_jrow_key df hcan m (show ("name" : String) ∈ dfKeys by decide),
    lk_jrow_key df hcan m (show ("sector" : String) ∈ dfKeys by decide)]
  show _ = dfKeys.map (lk m)
  rfl

theorem countP_eq_one_of_nodup {l : List (List Cell)} (h : l.Nodup) {t : List Cell}
    (ht : t ∈ l) : l.countP (fun x => decide (x = t)) = 1 := by
  induction l with
  | nil => cases ht
  | cons x xs ih =>
    obtain ⟨hx, hxs⟩ := List.nodup_cons.mp h
    by_cases hxt : x = t
    · rw [List.countP_cons_of_pos _ _ (by simpa using hxt)]
      have hz : xs.countP (fun x => decide (x = t)) = 0 := by
        refine List.countP_eq_zero.mpr ?_
        intro y hy
        simp only [decide_eq_true_eq]
        rintro rfl
        exact hx (hxt ▸ hy)
      rw [hz]
    · rw [List.countP_cons_of_neg _ _ (by simpa using hxt)]
      refine ih hxs ?_
      rcases List.mem_cons.mp ht with rfl | h'
      · exact absurd rfl hxt
      · exact h'

/-- Entity-key uniqueness on the final frame: each key tuple of the input
occupies exactly one output row. -/
theorem finalDf_count (df : DataFrame) (r0 : Row) (hwf : WF df)
    (huniq : UniqueDateCode df) (hr0 : r0 ∈ df.rows) :
    ((finalDf df).rows.filter (fun o =>
      [lk o "コード", lk o "企業名", lk o "セクター"] = keyOf r0)).length = 1 := by
  rw [← List.countP_eq_length_filter]
  have h1 : (finalDf df).rows.countP
      (fun o => decide ([lk o "コード", lk o "企業名", lk o "セクター"] = keyOf r0))
      = ((finalDf df).rows.map
          (fun o => [lk o "コード", lk o "企業名", lk o "セクター"])).countP
        (fun x => decide (x = keyOf r0)) :=
    (List.countP_map (fun x => decide (x = keyOf r0)) _ _).symm
  rw [h1, finalDf_keyJP df hwf.2.1, mergedOf_keys df huniq]
  exact countP_eq_one_of_nodup (baseKeys_nodup_keys df) (keyOf_mem_baseKeys hr0)

/-! ## C3 -/

/-- C3: under the long-format shape (at most one row per (date, code)),
every entity key tuple occurring in the input occupies exactly one row of
the wide output — nothing is dropped and nothing is duplicated by the outer
merges or the link join. -/
theorem reshape_entity_key_once (df out : DataFrame) (r0 : Row) (hwf : WF df)
    (huniq : UniqueDateCode df) (hok : reshape_data df = .ok out) (hr0 : r0 ∈ df.rows) :
    (out.rows.filter (fun o =>
      [lk o "コード", lk o "企業名", lk o "セクター"] = keyOf r0)).length = 1 := by
  have hne : df.rows ≠ [] := List.ne_nil_of_mem hr0
  have hout : out = finalDf df := by
    rw [reshape_ok df hwf hne] at hok
    exact (Except.ok.inj hok).symm
  subst hout
  exact finalDf_count df r0 hwf huniq hr0

/-- C3 witness: the statement applied at `exDf` and its first row. -/
theorem reshape_entity_key_once_witness :
    WF exDf ∧ UniqueDateCode exDf ∧
      ((okOut (reshape_data exDf)).rows.filter (fun o =>
        [lk o "コード", lk o "企業名", lk o "セクター"]
          = keyOf (exDf.rows.get ⟨0, by decide⟩))).length = 1 :=
  ⟨by decide, by decide,
    reshape_entity_key_once exDf (okOut (reshape_data exDf)) (exDf.rows.get ⟨0, by decide⟩)
      (by decide) (by decide) (by decide) (by decide)⟩

/-! ## C10 -/

/-- C10: when one code occurs with two different (name, sector) combinations
(on different dates, as long format forces), the output carries one row per
distinct key tuple, and every output row of that code receives the same
links — those of the code's strictly most recent row, whatever name/sector
that row carries — because the link lookup is keyed on code alone while the
merge is keyed on the full tuple. -/
theorem reshape_key_drift (df out : DataFrame) (r1 r2 rmax : Row) (hwf : WF df)
    (huniq : UniqueDateCode df) (hok : reshape_data df = .ok out)
    (h1 : r1 ∈ df.rows) (h2 : r2 ∈ df.rows)
    (hc1 : lk r1 "code" = lk rmax "code") (hc2 : lk r2 "code" = lk rmax "code")
    (hdrift : keyOf r1 ≠ keyOf r2) (hmem : rmax ∈ df.rows)
    (hmax : ∀ r ∈ df.rows, lk r "code" = lk rmax "code" →
      r = rmax ∨ cellLt (lk r "target_date") (lk rmax "target_date")) :
    ((out.rows.filter (fun o =>
        [lk o "コード", lk o "企業名", lk o "セクター"] = keyOf r1)).length = 1
      ∧ (out.rows.filter (fun o =>
        [lk o "コード", lk o "企業名", lk o "セクター"] = keyOf r2)).length = 1)
      ∧ ∀ o ∈ out.rows, lk o "コード" = lk rmax "code" →
          ∀ u ∈ url_cols, lk o u = lk rmax u := by
  have hne : df.rows ≠ [] := List.ne_nil_of_mem hmem
  have hout : out = finalDf df := by
    rw [reshape_ok df hwf hne] at hok
    exact (Except.ok.inj hok).symm
  subst hout
  exact ⟨⟨finalDf_count df r1 hwf huniq h1, finalDf_count df r2 hwf huniq h2⟩,
    finalDf_recent_links df rmax hwf hmem hmax⟩

/-- C10 witness: `exDfDrift` carries code 1111 with names Acme and Acme Inc
on the two dates; its most recent row (20250802) supplies the links. -/
theorem reshape_key_drift_witness :
    (WF exDfDrift ∧ UniqueDateCode exDfDrift ∧
        keyOf (exDfDrift.rows.get ⟨0, by decide⟩)
          ≠ keyOf (exDfDrift.rows.get ⟨1, by decide⟩)) ∧
      (((okOut (reshape_data exDfDrift)).rows.filter (fun o =>
          [lk o "コード", lk o "企業名", lk o "セクター"]
            = keyOf (exDfDrift.rows.get ⟨0, by decide⟩))).length = 1
        ∧ ((okOut (reshape_data exDfDrift)).rows.filter (fun o =>
          [lk o "コード", lk o "企業名", lk o "セクター"]
            = keyOf (exDfDrift.rows.get ⟨1, by decide⟩))).length = 1)
      ∧ ∀ o ∈ (okOut (reshape_data exDfDrift)).rows,
          lk o "コード" = lk (exDfDrift.rows.get ⟨1, by decide⟩) "code" →
          ∀ u ∈ url_cols, lk o u = lk (exDfDrift.rows.get ⟨1, by decide⟩) u :=
  ⟨⟨by decide, by decide, by decide⟩,
    reshape_key_drift exDfDrift (okOut (reshape_data exDfDrift))
      (exDfDrift.rows.get ⟨0, by decide⟩) (exDfDrift.rows.get ⟨1, by decide⟩)
      (exDfDrift.rows.get ⟨1, by decide⟩)
      (by decide) (by decide) (by decide) (by decide) (by decide)
      (by decide) (by decide) (by decide) (by decide) (by decide)⟩

end Db2Sheet
